import Mathlib

/-!
Verification development for the vamos-hose repository: a shallow embedding
of the HOSE-code generator, the canonical labeler, the sharded shift store,
the forward lookup and the reverse estimator, together with theorems about
the behaviour the design document ascribes to them.

Modelling conventions:
* JavaScript numbers are modelled as `Int`/`Nat` where the code only ever
  holds integers (scores, hashes, counts) and as `Rat` where genuine
  division/rounding arithmetic happens (shift averages, estimator scores).
* JavaScript strings are modelled as Lean `String`/`List Char`; all strings
  the code manipulates are ASCII, so Unicode scalar values coincide with the
  UTF-16 code units the engine compares and hashes.
* `Array.prototype.sort(cmp)` is modelled by the bottom-up stable merge sort
  of the JavaScriptCore builtin (the engine under bun, which runs this
  repository's tests): runs of doubling width are merged pairwise, the right
  element is taken exactly when `cmp(right, left) < 0`.
* Mutable tree nodes with parent pointers are modelled by an arena
  (`List TreeNode`) indexed by node ids; spheres are lists of node ids.
-/

set_option maxRecDepth 20000

namespace VamosHose

/-- Fuel-driven merge kernel; the fuel is always instantiated with the sum
of the lengths, which suffices for the recursion to complete. -/
def jsMergeF {α : Type} (lt : α → α → Bool) : Nat → List α → List α → List α
  | _, [], r => r
  | _, a :: l, [] => a :: l
  | 0, a :: l, b :: r => a :: l ++ b :: r
  | fuel + 1, a :: l, b :: r =>
    if lt b a then b :: jsMergeF lt fuel (a :: l) r
    else a :: jsMergeF lt fuel l (b :: r)

/-- Merge step of the JavaScriptCore array sort: the right-hand element is
taken exactly when the comparator applied as `cmp right left` is negative,
expressed here through the Boolean `lt` (`lt x y` means `cmp x y < 0`). -/
def jsMerge {α : Type} (lt : α → α → Bool) (l r : List α) : List α :=
  jsMergeF lt (l.length + r.length) l r

/-- One bottom-up pass: adjacent runs are merged pairwise, an odd trailing
run is carried over unchanged. -/
def jsMergePass {α : Type} (lt : α → α → Bool) : List (List α) → List (List α)
  | a :: b :: rest => jsMerge lt a b :: jsMergePass lt rest
  | xs => xs

/-- Iterated merging of the run list; the fuel always suffices because each
pass at least halves the number of runs. -/
def jsSortRuns {α : Type} (lt : α → α → Bool) : Nat → List (List α) → List α
  | _, [] => []
  | _, [r] => r
  | 0, r :: _ => r
  | fuel + 1, r :: s :: rest => jsSortRuns lt fuel (jsMergePass lt (r :: s :: rest))

/-- Model of `Array.prototype.sort(cmp)` under JavaScriptCore: a bottom-up
stable merge sort whose merges consult `cmp right left < 0`. -/
def jsSort {α : Type} (lt : α → α → Bool) (xs : List α) : List α :=
  jsSortRuns lt xs.length (xs.map fun a => [a])

/-- Lexicographic strictly-greater test on character lists, matching the
JavaScript `>` operator on (ASCII) strings. -/
def charsGt : List Char → List Char → Bool
  | [], _ => false
  | _ :: _, [] => true
  | a :: as, b :: bs =>
    if a.toNat > b.toNat then true
    else if a.toNat < b.toNat then false
    else charsGt as bs

/-- JavaScript `s > t` on strings. -/
def strGt (s t : String) : Bool := charsGt s.data t.data

/-- JavaScript `Math.round` on a rational: round half toward positive
infinity. -/
def jsRound (q : Rat) : Int := round q

/-- JavaScript `| 0` / signed 32-bit two's-complement truncation. -/
def jsToInt32 (x : Int) : Int := (x + 2 ^ 31) % 2 ^ 32 - 2 ^ 31

/-- Decimal concatenation, modelling `parseInt` of a template string that
juxtaposes the decimal representations of `a` and `b`. -/
def concatDec (a b : Nat) : Nat := a * 10 ^ (Nat.toDigits 10 b).length + b

end VamosHose

namespace VamosHose

/-- One bond of the molecular graph, as exposed by the external
openchemlib adapter: endpoints in atom indices, nominal order (1/2/3) and
the aromaticity flag that supersedes the order. -/
structure Bond where
  a : Nat
  b : Nat
  order : Nat
  aromatic : Bool
deriving DecidableEq, Repr, Inhabited

/-- Molecule capability surface consumed by the generator, modelling the
openchemlib accessors (`getAtomLabel`, `getAtomCharge`,
`getImplicitHydrogens`, `getConnAtoms` / `getConnAtom` / `getConnBond`,
`getBondOrder`, `isAromaticBond`).  The molecule itself comes from the
external SMILES parser, which is out of scope per the design document. -/
structure Mol where
  elems : List String
  charges : List Int
  implHs : List Nat
  bonds : List Bond
deriving DecidableEq, Repr, Inhabited

/-- Number of atoms (`mol.getAllAtoms()`). -/
def Mol.getAllAtoms (m : Mol) : Nat := m.elems.length

/-- Element symbol of an atom (`mol.getAtomLabel(i)`). -/
def Mol.getAtomLabel (m : Mol) (i : Nat) : String := m.elems.getD i ""

/-- Formal charge of an atom (`mol.getAtomCharge(i)`). -/
def Mol.getAtomCharge (m : Mol) (i : Nat) : Int := m.charges.getD i 0

/-- Implicit hydrogen count (`mol.getImplicitHydrogens(i)`). -/
def Mol.getImplicitHydrogens (m : Mol) (i : Nat) : Nat := m.implHs.getD i 0

/-- Neighbour list of an atom as (neighbour index, bond index) pairs, in
bond-index order — the order in which openchemlib's helper arrays list the
connected atoms (`getConnAtom(i, k)` / `getConnBond(i, k)`). -/
def Mol.connPairs (m : Mol) (i : Nat) : List (Nat × Nat) :=
  m.bonds.enum.filterMap fun p =>
    if p.2.a = i then some (p.2.b, p.1)
    else if p.2.b = i then some (p.2.a, p.1)
    else none

/-- Heavy-neighbour count (`mol.getConnAtoms(i)`). -/
def Mol.getConnAtoms (m : Mol) (i : Nat) : Nat := (m.connPairs i).length

/-- Nominal bond order (`mol.getBondOrder(b)`). -/
def Mol.getBondOrder (m : Mol) (b : Nat) : Nat := (m.bonds.getD b default).order

/-- Aromaticity flag of a bond (`mol.isAromaticBond(b)`). -/
def Mol.isAromaticBond (m : Mol) (b : Nat) : Bool := (m.bonds.getD b default).aromatic

/-- Bond type used by the generator: 4 for an aromatic bond, otherwise the
nominal order (`mol.isAromaticBond(b) ? 4 : mol.getBondOrder(b)`). -/
def Mol.bondTypeOf (m : Mol) (b : Nat) : Int :=
  if m.isAromaticBond b then 4 else (m.getBondOrder b : Int)

/-- Source `getTotalBondCount`: heavy connections plus implicit hydrogens,
1 for synthetic (negative-index) nodes. -/
def getTotalBondCount (m : Mol) (atomIdx : Int) : Nat :=
  if atomIdx < 0 then 1
  else m.getConnAtoms atomIdx.toNat + m.getImplicitHydrogens atomIdx.toNat

/-- Source `ATOMIC_NUM` table (`|| 0` default). -/
def atomicNum : String → Nat
  | "H" => 1 | "He" => 2 | "Li" => 3 | "Be" => 4 | "B" => 5 | "C" => 6
  | "N" => 7 | "O" => 8 | "F" => 9 | "Na" => 11 | "Mg" => 12 | "Al" => 13
  | "Si" => 14 | "P" => 15 | "S" => 16 | "Cl" => 17 | "K" => 19 | "Ca" => 20
  | "Fe" => 26 | "Co" => 27 | "Ni" => 28 | "Cu" => 29 | "Zn" => 30
  | "As" => 33 | "Se" => 34 | "Br" => 35 | "I" => 53 | "Ge" => 32
  | "Sn" => 50 | "Sb" => 51 | "Te" => 52
  | _ => 0

/-- Source `atomicMass` table (`|| 100` default). -/
def atomicMass : String → Nat
  | "H" => 1 | "He" => 4 | "Li" => 7 | "Be" => 9 | "B" => 11 | "C" => 12
  | "N" => 14 | "O" => 16 | "F" => 19 | "Ne" => 20 | "Na" => 23 | "Mg" => 24
  | "Al" => 27 | "Si" => 28 | "P" => 31 | "S" => 32 | "Cl" => 35 | "Ar" => 40
  | "K" => 39 | "Ca" => 40 | "Fe" => 56 | "Co" => 59 | "Ni" => 59
  | "Cu" => 64 | "Zn" => 65 | "As" => 75 | "Se" => 79 | "Br" => 80
  | "Kr" => 84 | "Ag" => 108 | "Sn" => 119 | "Sb" => 122 | "Te" => 128
  | "I" => 127 | "Xe" => 131 | "Pt" => 195 | "Au" => 197 | "Hg" => 201
  | "Tl" => 204 | "Pb" => 207 | "Bi" => 209 | "Ge" => 73
  | _ => 100

/-- Predicate used while building the source's `PRIMES` list: no prime
already collected whose square is at most `c` divides `c`. -/
def primesOk (acc : List Nat) (c : Nat) : Bool :=
  acc.all fun p => decide (p * p > c) || decide (c % p ≠ 0)

/-- Trial-division collection of the first 200 primes, as in the source's
`PRIMES` initializer (the fuel of 1300 covers the 200th prime, 1223). -/
def primesAux : Nat → List Nat → Nat → List Nat
  | 0, acc, _ => acc
  | fuel + 1, acc, c =>
    if acc.length ≥ 200 then acc
    else if primesOk acc c then primesAux fuel (acc ++ [c]) (c + 1)
    else primesAux fuel acc (c + 1)

/-- Source `PRIMES`: the first 200 primes. -/
def PRIMES : List Nat := primesAux 1300 [] 2

/-- One invariant pair of the canonical labeler: atom index, current and
previous invariant, assigned prime. -/
structure CPair where
  idx : Nat
  curr : Nat
  last : Nat
  prime : Nat
deriving DecidableEq, Repr, Inhabited

/-- Initial invariant of one atom: decimal juxtaposition of
total connections, heavy connections, atomic number, sign of charge,
absolute charge and implicit hydrogen count (source `createInvarLabel`). -/
def initialInvariant (m : Mol) (i : Nat) : Nat :=
  let conn := m.getConnAtoms i
  let implH := m.getImplicitHydrogens i
  let totalConn := conn + implH
  let an := atomicNum (m.getAtomLabel i)
  let charge := m.getAtomCharge i
  let signCharge := if charge < 0 then 1 else 0
  let absCharge := charge.natAbs
  concatDec (concatDec (concatDec (concatDec (concatDec totalConn conn) an)
    signCharge) absCharge) implH

/-- Rank assignment after sorting: dense ranks over distinct
(curr, last) pairs; each pair's `curr` becomes its rank and its prime the
rank-th entry of `PRIMES` (default 2). -/
def assignRanks (pairs : List CPair) : List CPair :=
  let ranked := pairs.foldl
    (fun (st : List CPair × Nat × Option CPair) p =>
      let (done, num, prev) := st
      let num' := match prev with
        | some q => if p.curr ≠ q.curr ∨ p.last ≠ q.last then num + 1 else num
        | none => num
      (done ++ [{ p with curr := num', prime := PRIMES.getD (num' - 1) 2 }],
        num', some p))
    ([], 1, none)
  ranked.1

/-- Source `canonSortAndRank`: sort ascending by `curr`, stable re-sort
ascending by `last`, then assign dense ranks. -/
def canonSortAndRank (pairs : List CPair) : List CPair :=
  let s1 := jsSort (fun a b => decide ((a.curr : Int) - b.curr < 0)) pairs
  let s2 := jsSort (fun a b => decide ((a.last : Int) - b.last < 0)) s1
  assignRanks s2

/-- Source `canonIsInvPart`: the partition is invariant when the maximum
rank equals the atom count or every pair satisfies `curr = last`. -/
def canonIsInvPart (pairs : List CPair) : Bool :=
  if (pairs.getLastD default).curr = pairs.length then true
  else pairs.all fun p => p.curr = p.last

/-- Doubling step applied to every pair (curr doubled, prime updated). -/
def doubledPairs (pairs : List CPair) : List CPair :=
  pairs.map fun p =>
    { p with curr := p.curr * 2, prime := PRIMES.getD (p.curr * 2 - 1) 2 }

/-- Decrement of the `curr` of the pair at position `t` (prime updated
from the decremented value, as the source does). -/
def decPair (l : List CPair) (t : Nat) : List CPair :=
  let q := l.getD t default
  l.set t { q with curr := q.curr - 1,
                   prime := PRIMES.getD (q.curr - 1 - 1) 2 }

/-- Source `canonBreakTies`, transcribed as the source's single loop: each
pair's `curr` is doubled (prime updated), the first position whose doubled
`curr` equals its already-doubled predecessor's records `tie = i - 1`, and
after the loop the pair at `tie` has its `curr` decremented by one. -/
def canonBreakTies (pairs : List CPair) : List CPair :=
  let st := pairs.foldl
    (fun (st : List CPair × Option Nat) p =>
      let p' := { p with curr := p.curr * 2,
                         prime := PRIMES.getD (p.curr * 2 - 1) 2 }
      let tie' := match st.2 with
        | some t => some t
        | none =>
          match st.1.getLast? with
          | some q => if p'.curr = q.curr then some (st.1.length - 1) else none
          | none => none
      (st.1 ++ [p'], tie'))
    ([], none)
  match st.2 with
  | some t => decPair st.1 t
  | none => st.1

/-- Prime currently assigned to atom `i` (the source's `idxMap[i].prime`,
keyed by the immutable `idx` field). -/
def primeOf (pairs : List CPair) (i : Nat) : Nat :=
  ((pairs.find? fun p => p.idx = i).getD default).prime

/-- One refinement round: replace every `curr` by the product of the primes
of the atom's heavy neighbours (pushing the previous `curr` into `last`),
then sort and re-rank. -/
def canonRound (m : Mol) (pairs : List CPair) : List CPair :=
  let updated := pairs.map fun p =>
    let product := (m.connPairs p.idx).foldl
      (fun acc pr => acc * primeOf pairs pr.1) 1
    { p with last := p.curr, curr := product }
  canonSortAndRank updated

/-- Refinement loop of `computeCanonicalLabels` with explicit fuel: on an
invariant partition, continue through `canonBreakTies` while the maximum
rank is below the atom count, otherwise stop. -/
def canonIter (m : Mol) : Nat → List CPair → List CPair
  | 0, pairs => pairs
  | fuel + 1, pairs =>
    let pairs' := canonRound m pairs
    if canonIsInvPart pairs' then
      if (pairs'.getLastD default).curr < pairs'.length then
        canonIter m fuel (canonBreakTies pairs')
      else pairs'
    else canonIter m fuel pairs'

/-- Source `computeCanonicalLabels`: initial invariants, rank, then at most
100 refinement rounds; the final `curr` values, indexed by atom. -/
def computeCanonicalLabels (m : Mol) : List Nat :=
  let n := m.getAllAtoms
  if n = 0 then []
  else
    let pairs0 := (List.range n).map fun i =>
      { idx := i, curr := initialInvariant m i, last := 0, prime := 2 : CPair }
    let pairs := canonIter m 100 (canonSortAndRank pairs0)
    (List.range n).map fun i => ((pairs.find? fun p => p.idx = i).getD default).curr

end VamosHose

namespace VamosHose

/-- Tree node of the HOSE BFS tree (source `makeNode`): atom index (−1 for
synthetic nodes), element symbol (or the sentinels `,` / `H`), bond type to
the parent, parent node id in the arena, parent's atom index, molecular
total-bond count, and the fields updated by pass 2. -/
structure TreeNode where
  atomIdx : Int
  element : String
  bondType : Int
  sourceId : Option Nat
  sourceAtomIdx : Int
  degree : Nat
  score : Int
  ranking : Int
  sortOrder : Int
  stringscore : String
  stopper : Bool
  isRingClosure : Bool
deriving DecidableEq, Repr, Inhabited

/-- Source `makeNode`: a fresh node with zeroed derived fields. -/
def mkNode (atomIdx : Int) (element : String) (bondType : Int)
    (sourceId : Option Nat) (sourceAtomIdx : Int) (degree : Nat) : TreeNode :=
  { atomIdx := atomIdx, element := element, bondType := bondType,
    sourceId := sourceId, sourceAtomIdx := sourceAtomIdx, degree := degree,
    score := 0, ranking := 0, sortOrder := 0, stringscore := "",
    stopper := false, isRingClosure := false }

/-- Arena of tree nodes; node ids index this list. -/
abbrev Arena := List TreeNode

/-- Node stored at an id. -/
def nodeAt (ar : Arena) (id : Nat) : TreeNode := ar.getD id default

/-- Source `ELEMENT_RANK` table. -/
def elementRankTbl : String → Option Int
  | "C" => some 9000 | "O" => some 8900 | "N" => some 8800
  | "S" => some 8700 | "P" => some 8600 | "Si" => some 8500
  | "B" => some 8400 | "F" => some 8300 | "Cl" => some 8200
  | "Br" => some 8100 | "I" => some 7900
  | _ => none

/-- Source `RING_RANK`. -/
def RING_RANK : Int := 1100

/-- Source `getElementRank`. -/
def getElementRank (e : String) : Int :=
  if e = "H" then 799999
  else if e = "," then 1000
  else if e = "&" then RING_RANK
  else match elementRankTbl e with
    | some r => r
    | none => 800000 - (atomicMass e : Int)

/-- Source `BOND_RANKINGS` lookup (index 0 unused, 1=single, 2=double,
3=triple, 4=aromatic). -/
def bondRanking (bt : Int) : Int :=
  [0, 0, 200000, 300000, 100000].getD bt.toNat 0

/-- Source `getBondSymbol` over `BOND_SYMBOLS`. -/
def getBondSymbol (bt : Int) : String :=
  if bt < 0 ∨ bt > 4 then ""
  else ["<", "", "=", "%", "*"].getD bt.toNat ""

/-- Source `SPHERE_DELIMITERS`. -/
def SPHERE_DELIMITERS : List String :=
  ["(", "/", "/", ")", "/", "/", "/", "/", "/", "/"]

/-- Source `BREMSER` substitution. -/
def bremserElement (e : String) : String :=
  if e = "Si" then "Q" else if e = "Cl" then "X" else if e = "Br" then "Y"
  else e

/-- Source `chargeCode`: charge suffix for a real atom. -/
def chargeCode (m : Mol) (atomIdx : Int) : String :=
  if atomIdx < 0 then ""
  else
    let charge := m.getAtomCharge atomIdx.toNat
    if charge = 0 then ""
    else if charge.natAbs = 1 then (if charge < 0 then "-" else "+")
    else "'" ++ (if charge > 0 then "+" else "") ++ toString charge ++ "'"

/-- Source `padScore`: decimal representation left-padded with zeros to at
least six characters. -/
def padScore (score : Int) : String :=
  let s := toString score
  String.mk (List.replicate (6 - s.length) '0') ++ s

/-- Comparator of the source's `sortByCanonicalLabel` as a strict `lt`
(`cmp a b < 0`): zero whenever either side is a synthetic or comma node,
otherwise the canonical labels are compared. -/
def canonCmpLt (labels : List Nat) (a b : TreeNode) : Bool :=
  if a.atomIdx < 0 ∧ b.atomIdx < 0 then false
  else if a.atomIdx < 0 ∨ a.element = "," then false
  else if b.atomIdx < 0 ∨ b.element = "," then false
  else decide (labels.getD a.atomIdx.toNat 0 < labels.getD b.atomIdx.toNat 0)

/-- Source `sortByCanonicalLabel`: engine sort under the canonical-label
comparator. -/
def sortByCanonicalLabel (labels : List Nat) (nodes : List TreeNode) :
    List TreeNode :=
  jsSort (canonCmpLt labels) nodes

/-- Sphere 0 of pass 1: one node per neighbour of the centre, then one `H`
pseudo node per implicit hydrogen of the centre. -/
def sphere0Nodes (m : Mol) (centerIdx : Nat) : List TreeNode :=
  ((m.connPairs centerIdx).map fun pr =>
    mkNode (pr.1 : Int) (m.getAtomLabel pr.1) (m.bondTypeOf pr.2) none
      (centerIdx : Int) (getTotalBondCount m (pr.1 : Int)))
  ++ List.replicate (m.getImplicitHydrogens centerIdx)
      (mkNode (-1) "H" 1 none (centerIdx : Int) 1)

/-- Children contributed by one node of the previous sphere: sentinels and
`H` nodes are not expanded; a truly terminal atom yields a single comma
sentinel; otherwise every heavy neighbour other than the parent atom, then
the implicit hydrogens. -/
def expandNode (m : Mol) (id : Nat) (node : TreeNode) : List TreeNode :=
  if node.element = "," ∨ node.element = "&" ∨ node.element = "#" then []
  else if node.element = "H" then []
  else if node.atomIdx < 0 then []
  else
    let aIdx := node.atomIdx.toNat
    let conn := m.connPairs aIdx
    let parentAtomIdx := node.sourceAtomIdx
    let implH := m.getImplicitHydrogens aIdx
    if conn.length = 1 ∧ implH = 0 then
      [mkNode (-1) "," (-1) (some id) (aIdx : Int) 0]
    else
      (conn.filterMap fun pr =>
        if (pr.1 : Int) = parentAtomIdx then none
        else some (mkNode (pr.1 : Int) (m.getAtomLabel pr.1)
          (m.bondTypeOf pr.2) (some id) (aIdx : Int)
          (getTotalBondCount m (pr.1 : Int))))
      ++ List.replicate implH (mkNode (-1) "H" 1 (some id) (aIdx : Int) 1)

/-- All children of a (sorted) previous sphere, in source iteration order. -/
def expandSphere (m : Mol) (ar : Arena) (prevIds : List Nat) :
    List TreeNode :=
  prevIds.foldl (fun acc id => acc ++ expandNode m id (nodeAt ar id)) []

/-- Append a sorted sphere's nodes to the arena, returning the new arena and
the fresh node ids of the sphere. -/
def appendSphere (ar : Arena) (nodes : List TreeNode) :
    Arena × List Nat :=
  (ar ++ nodes, List.range' ar.length nodes.length)

/-- Build the remaining spheres of pass 1 (`maxSpheres − 1` expansion
rounds), sorting each sphere by canonical label before committing it. -/
def buildLoop (m : Mol) (labels : List Nat) :
    Nat → Arena × List (List Nat) → List Nat → Arena × List (List Nat)
  | 0, st, _ => st
  | fuel + 1, (ar, spheres), prevIds =>
    let nodes := expandSphere m ar prevIds
    let sorted := sortByCanonicalLabel labels nodes
    let (ar', ids) := appendSphere ar sorted
    buildLoop m labels fuel (ar', spheres ++ [ids]) ids

/-- Source `buildBfsTree` (pass 1): only the parent atom is skipped, no
visited tracking; spheres are sorted by canonical label. -/
def buildBfsTree (m : Mol) (centerIdx : Nat) (maxSpheres : Nat)
    (labels : List Nat) : Arena × List (List Nat) :=
  let s0 := sortByCanonicalLabel labels (sphere0Nodes m centerIdx)
  let (ar, ids0) := appendSphere [] s0
  buildLoop m labels (maxSpheres - 1) (ar, [ids0]) ids0

/-- Fuel-driven kernel of one bubble pass; the fuel is instantiated with
the list length, which suffices. -/
def bubblePassF (ar : Arena) : Nat → List Nat → List Nat
  | 0, xs => xs
  | fuel + 1, a :: b :: rest =>
    if strGt (nodeAt ar b).stringscore (nodeAt ar a).stringscore then
      b :: bubblePassF ar fuel (a :: rest)
    else a :: bubblePassF ar fuel (b :: rest)
  | _ + 1, xs => xs

/-- One bubble pass of the source `sortNodesByStringscore`: adjacent ids
are swapped when the later node's stringscore is strictly greater. -/
def bubblePass (ar : Arena) (ids : List Nat) : List Nat :=
  bubblePassF ar ids.length ids

/-- Source `sortNodesByStringscore`: bubble sort descending by stringscore
(the source loops until no swap occurs; `length` passes always reach that
fixpoint), then `sortOrder := length − position` is stored on every node. -/
def sortNodesByStringscore (ar : Arena) (ids : List Nat) :
    List Nat × Arena :=
  let sorted := (List.range ids.length).foldl (fun l _ => bubblePass ar l) ids
  let ar' := sorted.enum.foldl
    (fun a p =>
      a.set p.2 { nodeAt a p.2 with sortOrder := (sorted.length : Int) - p.1 })
    ar
  (sorted, ar')

/-- Pass 2 step 1: degree accumulation from the outermost sphere inward;
every node adds its degree to its parent's `ranking`. -/
def degreeAccum (spheres : List (List Nat)) (maxSpheres : Nat)
    (ar : Arena) : Arena :=
  (List.range (maxSpheres - 1)).foldl
    (fun a f =>
      (spheres.getD (maxSpheres - 1 - f) []).foldl
        (fun a id =>
          let node := nodeAt a id
          match node.sourceId with
          | some src =>
            a.set src { nodeAt a src with
              ranking := (nodeAt a src).ranking + (node.degree : Int) }
          | none => a)
        a)
    ar

/-- Pass 2 step 2 kernel (source `calculateNodeScores`): each node of the
sphere is scored against the visited set as it was when the sphere was
entered — an already-visited real atom receives the ring-closure rank and
the flag, any other node its element rank; the bond rank is added in both
cases; the real atom indices are collected and appended to the visited set
only after the loop. -/
def calculateNodeScores (ar : Arena) (sphereIds : List Nat)
    (visited : List Nat) : Arena × List Nat :=
  let st := sphereIds.foldl
    (fun (st : Arena × List Nat) id =>
      let node := nodeAt st.1 id
      let node1 :=
        if node.atomIdx ≥ 0 ∧ visited.contains node.atomIdx.toNat then
          { node with score := node.score + RING_RANK, isRingClosure := true }
        else
          { node with score := node.score + getElementRank node.element }
      let node2 :=
        if 0 ≤ node1.bondType ∧ node1.bondType ≤ 4 then
          { node1 with score := node1.score + bondRanking node1.bondType }
        else if node1.bondType = -1 then
          { node1 with score := node1.score + 50000 }
        else node1
      let toMark' :=
        if node.atomIdx ≥ 0 then st.2 ++ [node.atomIdx.toNat] else st.2
      (st.1.set id node2, toMark'))
    (ar, [])
  (st.1, visited ++ st.2)

end VamosHose

namespace VamosHose

/-- Pass 2 steps 4 and 6: forward stringscore build
(`parent.stringscore ‖ zeropad6(score)`, empty for sphere-0 parents),
re-sorting each sphere. -/
def forwardStringscores (maxSpheres : Nat)
    (st : Arena × List (List Nat)) : Arena × List (List Nat) :=
  (List.range maxSpheres).foldl
    (fun (st : Arena × List (List Nat)) f =>
      let (a, sph) := st
      let ids := sph.getD f []
      let a1 := ids.foldl
        (fun a id =>
          let node := nodeAt a id
          let parentSS := match node.sourceId with
            | some s => (nodeAt a s).stringscore
            | none => ""
          a.set id { node with stringscore := parentSS ++ padScore node.score })
        a
      let s1 := sortNodesByStringscore a1 ids
      (s1.2, sph.set f s1.1))
    st

/-- Emission of sphere 0: bond symbol plus token per node, ring closures
flagged as stoppers, atoms registered in the emission visited set. -/
def emitSphere0 (m : Mol) (st : String × List Nat × Arena) (id : Nat) :
    String × List Nat × Arena :=
  let (code, visited, a) := st
  let node := nodeAt a id
  let bondSym := getBondSymbol node.bondType
  let (code1, a1) :=
    if node.atomIdx ≥ 0 ∧ visited.contains node.atomIdx.toNat then
      (code ++ bondSym ++ "&" ++ chargeCode m node.atomIdx,
        a.set id { node with stopper := true })
    else if node.atomIdx ≥ 0 then
      (code ++ bondSym ++ bremserElement node.element
        ++ chargeCode m node.atomIdx, a)
    else if node.element = "H" then (code ++ bondSym ++ "H", a)
    else (code, a)
  let visited1 :=
    if node.atomIdx ≥ 0 then visited ++ [node.atomIdx.toNat] else visited
  let srcStopper := match node.sourceId with
    | some s => (nodeAt a1 s).stopper
    | none => false
  let a2 :=
    if node.sourceId.isSome && srcStopper then
      a1.set id { nodeAt a1 id with stopper := true }
    else a1
  (code1, visited1, a2)

/-- Emission of one node of a later sphere: comma on branch change (when
the parent is not a stopper), then bond symbol plus token unless the parent
is a stopper; stopper flags propagate parent-to-child. -/
def emitNode (m : Mol) (st : String × List Nat × Arena × Int) (id : Nat) :
    String × List Nat × Arena × Int :=
  let (code, visited, a, currentBranch) := st
  let node := nodeAt a id
  let sourceAtom : Int := match node.sourceId with
    | some s => (nodeAt a s).atomIdx
    | none => -1
  let srcStopper := match node.sourceId with
    | some s => (nodeAt a s).stopper
    | none => false
  let (code1, branch1) :=
    if node.sourceId.isSome && !srcStopper && decide (sourceAtom ≠ currentBranch) then
      (code ++ ",", sourceAtom)
    else (code, currentBranch)
  let (code2, a1) :=
    if node.sourceId.isSome && !srcStopper then
      let bondSym := getBondSymbol node.bondType
      if node.atomIdx ≥ 0 ∧ visited.contains node.atomIdx.toNat then
        (code1 ++ bondSym ++ "&" ++ chargeCode m node.atomIdx,
          a.set id { node with stopper := true })
      else if node.atomIdx ≥ 0 then
        (code1 ++ bondSym ++ bremserElement node.element
          ++ chargeCode m node.atomIdx, a)
      else if node.element = "H" then (code1 ++ bondSym ++ "H", a)
      else (code1, a)
    else (code1, a)
  let visited1 :=
    if node.atomIdx ≥ 0 then visited ++ [node.atomIdx.toNat] else visited
  let a2 :=
    if node.sourceId.isSome && srcStopper then
      a1.set id { nodeAt a1 id with stopper := true }
    else a1
  (code2, visited1, a2, branch1)

/-- Source `generateCodeString` (pass 2 step 7): sphere 0 without a leading
delimiter, each later sphere preceded by its delimiter, branch commas,
`&` ring closures against the emission visited set, and the trailing
fill-up delimiters. -/
def generateCodeString (m : Mol) (ar : Arena) (spheres : List (List Nat))
    (maxSpheres : Nat) (centerIdx : Nat) : String :=
  let s0 := spheres.getD 0 []
  let st0 := s0.foldl (emitSphere0 m) ("", [centerIdx], ar)
  let stMain := (List.range (maxSpheres - 1)).foldl
    (fun (st : String × List Nat × Arena) f =>
      let (code, visited, a) := st
      let sphere := spheres.getD (f + 1) []
      let code := code ++ SPHERE_DELIMITERS.getD f "/"
      if sphere.isEmpty then (code, visited, a)
      else
        let currentBranch : Int := match sphere.head? with
          | some id0 =>
            match (nodeAt a id0).sourceId with
            | some s => (nodeAt a s).atomIdx
            | none => -1
          | none => -1
        let r := sphere.foldl (emitNode m) (code, visited, a, currentBranch)
        (r.1, r.2.1, r.2.2.1))
    st0
  let code := stMain.1
  let upper := min maxSpheres SPHERE_DELIMITERS.length
  (List.range' (maxSpheres - 1) (upper - (maxSpheres - 1))).foldl
    (fun c f => c ++ SPHERE_DELIMITERS.getD f "/") code

/-- Source `createCode` (pass 2): degree accumulation, scoring with
sphere-batched visited tracking, ranking merge, forward stringscores,
backward propagation, forward rebuild, then emission. -/
def createCode (m : Mol) (ar : Arena) (spheres : List (List Nat))
    (maxSpheres : Nat) (centerIdx : Nat) : String :=
  let a1 := degreeAccum spheres maxSpheres ar
  let st2 := (List.range maxSpheres).foldl
    (fun (st : Arena × List (List Nat) × List Nat) f =>
      let (a, sph, vis) := st
      let ids := sph.getD f []
      let r := calculateNodeScores a ids vis
      let s := sortNodesByStringscore r.1 ids
      (s.2, sph.set f s.1, r.2))
    (a1, spheres, [centerIdx])
  let st3 := (List.range maxSpheres).foldl
    (fun (st : Arena × List (List Nat)) f =>
      let (a, sph) := st
      let ids := sph.getD f []
      let a1 := ids.foldl
        (fun a id =>
          let node := nodeAt a id
          a.set id { node with score := node.score + node.ranking })
        a
      let s := sortNodesByStringscore a1 ids
      (s.2, sph.set f s.1))
    (st2.1, st2.2.1)
  let st4 := forwardStringscores maxSpheres st3
  let st5 := (List.range (maxSpheres - 1)).foldl
    (fun (st : Arena × List (List Nat)) k =>
      let (a, sph) := st
      let f := maxSpheres - 1 - k
      let ids := sph.getD f []
      let a1 := ids.foldl
        (fun a id =>
          let node := nodeAt a id
          match node.sourceId with
          | some s => a.set s { nodeAt a s with stringscore := node.stringscore }
          | none => a)
        a
      let parentIds := sph.getD (f - 1) []
      let s := sortNodesByStringscore a1 parentIds
      (s.2, sph.set (f - 1) s.1))
    st4
  let st6 := forwardStringscores maxSpheres st5
  generateCodeString m st6.1 st6.2 maxSpheres centerIdx

/-- Source `generateHoseCode`: canonical labels, pass 1, pass 2. -/
def generateHoseCode (m : Mol) (atomIndex : Nat) (maxSpheres : Nat) :
    String :=
  let labels := computeCanonicalLabels m
  let built := buildBfsTree m atomIndex maxSpheres labels
  createCode m built.1 built.2 maxSpheres atomIndex

end VamosHose

namespace VamosHose

/-- Molecule produced by the external parser for the SMILES `CCC`
(propane): three carbons in a chain, implicit hydrogens 3/2/3. -/
def propaneMol : Mol :=
  { elems := ["C", "C", "C"], charges := [0, 0, 0], implHs := [3, 2, 3],
    bonds := [⟨0, 1, 1, false⟩, ⟨1, 2, 1, false⟩] }

/-- Molecule produced by the external parser for the SMILES `CC(=O)C`
(acetone): carbons 0, 1, 3 and oxygen 2, double bond 1–2. -/
def acetoneMol : Mol :=
  { elems := ["C", "C", "O", "C"], charges := [0, 0, 0, 0],
    implHs := [3, 0, 0, 3],
    bonds := [⟨0, 1, 1, false⟩, ⟨1, 2, 2, false⟩, ⟨1, 3, 1, false⟩] }

/-- Molecule produced by the external parser for the SMILES `c1ccccc1`
(benzene): six aromatic carbons in a ring, one implicit hydrogen each. -/
def benzeneMol : Mol :=
  { elems := ["C", "C", "C", "C", "C", "C"],
    charges := [0, 0, 0, 0, 0, 0], implHs := [1, 1, 1, 1, 1, 1],
    bonds := [⟨0, 1, 1, true⟩, ⟨1, 2, 1, true⟩, ⟨2, 3, 1, true⟩,
      ⟨3, 4, 1, true⟩, ⟨4, 5, 1, true⟩, ⟨5, 0, 1, true⟩] }

/-- Molecule produced by the external parser for the SMILES `Cc1ccccc1`
(toluene): methyl carbon 0 attached to an aromatic ring 1–6. -/
def tolueneMol : Mol :=
  { elems := ["C", "C", "C", "C", "C", "C", "C"],
    charges := [0, 0, 0, 0, 0, 0, 0], implHs := [3, 0, 1, 1, 1, 1, 1],
    bonds := [⟨0, 1, 1, false⟩, ⟨1, 2, 1, true⟩, ⟨2, 3, 1, true⟩,
      ⟨3, 4, 1, true⟩, ⟨4, 5, 1, true⟩, ⟨5, 6, 1, true⟩, ⟨6, 1, 1, true⟩] }

end VamosHose

namespace VamosHose

/-- Hash step and fold of `hashCode` in `src/database.js` (the chunk
loader): `h = ((h << 5) - h + c) | 0` over the UTF-16 code units, starting
from 0, then `Math.abs`.  Keys are modelled as their code-unit lists. -/
def hashCodeDb (units : List Nat) : Nat :=
  (units.foldl (fun (h : Int) (c : Nat) =>
    jsToInt32 (jsToInt32 (h * 32) - h + (c : Int))) 0).natAbs

/-- Hash fold of `hashCode` in `cleaning-scripts/shard_database.mjs`,
transcribed from that file: textually the same computation as the
loader's. -/
def hashCodeShard (units : List Nat) : Nat :=
  (units.foldl (fun (h : Int) (c : Nat) =>
    jsToInt32 (jsToInt32 (h * 32) - h + (c : Int))) 0).natAbs

/-- Source `chunkIndex` of the loader. -/
def chunkIndex (units : List Nat) : Nat := hashCodeDb units % 256

/-- Bucket assignment loop of `shard_database.mjs`: every key is inserted
into bucket `hashCode(k) % 256` of the 256 initially-empty buckets. -/
def shardBuckets (keys : List (List Nat)) : List (List (List Nat)) :=
  keys.foldl
    (fun bs k =>
      let idx := hashCodeShard k % 256
      bs.set idx (bs.getD idx [] ++ [k]))
    (List.replicate 256 [])

/-- Modelled from the spec (§6 Chunk hash): the fold
`h := ((h << 5) − h + c) mod 2^32` under two's-complement truncation,
followed by `idx := |h| mod 256`. -/
def specChunkIdx (units : List Nat) : Nat :=
  (units.foldl (fun (h : Int) (c : Nat) =>
    jsToInt32 (h * 2 ^ 5 - h + (c : Int))) 0).natAbs % 256

/-- UTF-16 code units of an ASCII string (HOSE keys are ASCII, so scalar
values and code units coincide). -/
def strUnits (s : String) : List Nat := s.data.map Char.toNat

/-- Statistics of one solvent submap of a shift entry. -/
structure SolventStats where
  min : Rat
  max : Rat
  avg : Rat
  cnt : Rat
deriving DecidableEq, Repr, Inhabited

/-- Shift entry of the store: nucleus letter (key `n`), reference SMILES
(key `s`), and the remaining keyed solvent submaps in object-key order. -/
structure Entry where
  n : String
  s : String
  solvents : List (String × SolventStats)
deriving DecidableEq, Repr, Inhabited

/-- Source `computeWeightedAvg`: fold over the entry's keyed values,
skipping the keys `n` and `s`, accumulating `avg·cnt` and `cnt`; zero
total weight yields 0, otherwise the weighted mean rounded to one
decimal (`Math.round(x * 10) / 10`). -/
def computeWeightedAvg (e : Entry) : Rat :=
  let st := e.solvents.foldl
    (fun (st : Rat × Rat) kv =>
      if kv.1 = "n" ∨ kv.1 = "s" then st
      else (st.1 + kv.2.avg * kv.2.cnt, st.2 + kv.2.cnt))
    (0, 0)
  if st.2 = 0 then 0
  else (jsRound (st.1 / st.2 * 10) : Rat) / 10

/-- Weighted sum `Σ avg·count` over the solvent submaps (spec §3), with the
same key filter the code applies. -/
def entryWeightedSum (e : Entry) : Rat :=
  (e.solvents.filter fun kv => ¬(kv.1 = "n" ∨ kv.1 = "s")).foldr
    (fun kv acc => kv.2.avg * kv.2.cnt + acc) 0

/-- Total count `Σ count` over the solvent submaps (spec §3). -/
def entryTotalCnt (e : Entry) : Rat :=
  (e.solvents.filter fun kv => ¬(kv.1 = "n" ∨ kv.1 = "s")).foldr
    (fun kv acc => kv.2.cnt + acc) 0

/-- Spec §3 `round10`: `round(10·x)/10`. -/
def round10 (x : Rat) : Rat := (jsRound (10 * x) : Rat) / 10

end VamosHose

namespace VamosHose

/-- JavaScript `lastIndexOf` of one character over a code list (−1 when
absent). -/
def lastIndexOfC (c : Char) : List Char → Int
  | [] => -1
  | a :: as =>
    let r := lastIndexOfC c as
    if r ≥ 0 then r + 1 else if a = c then 0 else -1

/-- Source `lookupNmrShifts` delimiter scan:
`Math.max(lastIndexOf('/'), lastIndexOf(')'), lastIndexOf('('))`. -/
def lastDelimIdx (s : List Char) : Int :=
  max (lastIndexOfC '/' s) (max (lastIndexOfC ')' s) (lastIndexOfC '(' s))

/-- Truncation loop of `lookupNmrShifts` (at most 8 attempts): stop when
the rightmost delimiter is at position ≤ 0; otherwise query the truncation
that keeps the delimiter, then the one that drops it, recursing on the
latter. -/
def truncLoop {β : Type} (db : List Char → Option β) :
    Nat → List Char → Option (List Char × β)
  | 0, _ => none
  | fuel + 1, truncated =>
    let idx := lastDelimIdx truncated
    if idx ≤ 0 then none
    else
      let i := idx.toNat
      let beforeDelim := truncated.take i
      let withDelim := truncated.take (i + 1)
      match db withDelim with
      | some hit => some (withDelim, hit)
      | none =>
        match db beforeDelim with
        | some hit => some (beforeDelim, hit)
        | none => truncLoop db fuel beforeDelim

/-- Per-atom resolution of `lookupNmrShifts`: exact query, then the
truncation loop, then — with `hoseToUse` still the original key, since it
is only reassigned on a hit — one query with the maximal leading run of
`H` removed. -/
def resolveAtom {β : Type} (db : List Char → Option β) (hose : List Char) :
    Option (List Char × β) :=
  match db hose with
  | some hit => some (hose, hit)
  | none =>
    match truncLoop db 8 hose with
    | some r => some r
    | none =>
      if hose.head? = some 'H' then
        match db (hose.dropWhile (· = 'H')) with
        | some hit => some (hose.dropWhile (· = 'H'), hit)
        | none => none
      else none

/-- Result row of the forward lookup. -/
structure LookupResult (β : Type) where
  atom : String
  hose : List Char
  hit : β
deriving DecidableEq, Repr

/-- Result-collection loop of `lookupNmrShifts`: per generated
(atom, HOSE) pair, push a row only when the resolution hits. -/
def lookupShifts {β : Type} (db : List Char → Option β)
    (entries : List (String × List Char)) : List (LookupResult β) :=
  entries.foldl
    (fun acc e =>
      match resolveAtom db e.2 with
      | some r => acc ++ [{ atom := e.1, hose := r.1, hit := r.2 }]
      | none => acc)
    []

/-- Modelled from the spec (§4.5 step 5): the rightmost occurrence of any
of `/`, `(`, `)` — the position of the last character of the key belonging
to that delimiter set, if any. -/
def specRightmostDelim : List Char → Option Nat
  | [] => none
  | a :: as =>
    match specRightmostDelim as with
    | some i => some (i + 1)
    | none => if a = '/' ∨ a = '(' ∨ a = ')' then some 0 else none

/-- Modelled from the spec (§4.5 step 5, truncation loop): up to 8
iterations; stop when no delimiter occurs at a position greater than zero;
query the prefix keeping the delimiter, on miss the prefix without it,
then continue from the latter. -/
def specTruncLoop {β : Type} (db : List Char → Option β) :
    Nat → List Char → Option (List Char × β)
  | 0, _ => none
  | fuel + 1, key =>
    match specRightmostDelim key with
    | none => none
    | some i =>
      if i = 0 then none
      else
        match db (key.take (i + 1)) with
        | some hit => some (key.take (i + 1), hit)
        | none =>
          match db (key.take i) with
          | some hit => some (key.take i, hit)
          | none => specTruncLoop db fuel (key.take i)

/-- Modelled from the spec (§4.5 step 5): exact query, truncation loop,
then — if the key begins with a run of `H` — one query with that maximal
run removed; no hit resolves the atom to nothing. -/
def specResolve {β : Type} (db : List Char → Option β) (hose : List Char) :
    Option (List Char × β) :=
  match db hose with
  | some hit => some (hose, hit)
  | none =>
    match specTruncLoop db 8 hose with
    | some r => some r
    | none =>
      if hose.head? = some 'H' then
        match db (hose.dropWhile (· = 'H')) with
        | some hit => some (hose.dropWhile (· = 'H'), hit)
        | none => none
      else none

/-- Boolean list-prefix test. -/
def isPrefB {α : Type} [DecidableEq α] : List α → List α → Bool
  | [], _ => true
  | _ :: _, [] => false
  | a :: as, b :: bs => a = b && isPrefB as bs

end VamosHose

namespace VamosHose

/-- Candidate row returned by the estimator. -/
structure Candidate where
  smiles : String
  hose : List Nat
  matchedPeaks : Nat
  score : Rat
deriving DecidableEq, Repr, Inhabited

/-- Per-SMILES accumulator of `scoreDatabase`: representative HOSE keys,
matched peak indices, cumulative error. -/
structure Accum where
  hoses : List (List Nat)
  matchedPeaks : List Nat
  totalError : Rat
deriving DecidableEq, Repr, Inhabited

/-- Association-list update preserving insertion order (JavaScript `Map`
iteration order). -/
def updateAssoc {β : Type} (m : List (String × β)) (k : String) (v : β) :
    List (String × β) :=
  if m.any fun kv => kv.1 = k then
    m.map fun kv => if kv.1 = k then (kv.1, v) else kv
  else m ++ [(k, v)]

/-- Association-list lookup. -/
def getAssoc {β : Type} [Inhabited β] (m : List (String × β)) (k : String) :
    β :=
  ((m.find? fun kv => kv.1 = k).getD (k, default)).2

/-- One peak comparison of the accumulator loop of `scoreDatabase`: a peak
within tolerance is added to the entry's SMILES accumulator only when its
index is not already present; the accumulator is created on first use. -/
def accumPeakStep (tolerance : Rat) (shift : Rat) (peaks : List Rat)
    (hoseCode : List Nat) (smiles : String)
    (bySmiles : List (String × Accum)) (i : Nat) : List (String × Accum) :=
  let err := |shift - peaks.getD i 0|
  if err ≤ tolerance then
    let bySmiles :=
      if bySmiles.any fun kv => kv.1 = smiles then bySmiles
      else bySmiles ++ [(smiles, ⟨[], [], 0⟩)]
    let acc := getAssoc bySmiles smiles
    if acc.matchedPeaks.contains i then bySmiles
    else
      updateAssoc bySmiles smiles
        { hoses := acc.hoses ++ [hoseCode],
          matchedPeaks := acc.matchedPeaks ++ [i],
          totalError := acc.totalError + err }
  else bySmiles

/-- One database entry of the accumulator loop: entries of another nucleus
are skipped; otherwise the entry's weighted-average shift is compared
against every observed peak index. -/
def accumEntryStep (peaks : List Rat) (tolerance : Rat)
    (targetNucleus : String) (bySmiles : List (String × Accum))
    (he : List Nat × Entry) : List (String × Accum) :=
  if he.2.n ≠ targetNucleus then bySmiles
  else
    (List.range peaks.length).foldl
      (accumPeakStep tolerance (computeWeightedAvg he.2) peaks he.1 he.2.s)
      bySmiles

/-- Accumulator-building loop of `scoreDatabase`: for every entry of the
target nucleus, its weighted-average shift is compared against every
observed peak; a peak within tolerance is added to the entry's SMILES
accumulator only when its index is not already present. -/
def buildAccums (db : List (List Nat × Entry)) (peaks : List Rat)
    (tolerance : Rat) (targetNucleus : String) : List (String × Accum) :=
  db.foldl (accumEntryStep peaks tolerance targetNucleus) []

/-- Candidate row built from one per-SMILES accumulator (the emission step
of `scoreDatabase`). -/
def mkCand (peaks : List Rat) (tolerance : Rat) (kv : String × Accum) :
    Candidate :=
  let matched := kv.2.matchedPeaks.length
  let avgError := kv.2.totalError / (matched : Rat)
  { smiles := kv.1, hose := kv.2.hoses.getD 0 [],
    matchedPeaks := matched,
    score := (jsRound ((matched : Rat) / (peaks.length : Rat)
      * (1 - avgError / tolerance) * 1000) : Rat) / 1000 }

/-- Emission step of `scoreDatabase`: accumulators below `minMatches`
matched peaks are dropped, the rest become candidates. -/
def scoreStep (peaks : List Rat) (tolerance : Rat) (minMatches : Nat)
    (results : List Candidate) (kv : String × Accum) : List Candidate :=
  if kv.2.matchedPeaks.length < minMatches then results
  else results ++ [mkCand peaks tolerance kv]

/-- Source `scoreDatabase`: accumulators, then one candidate per SMILES
with at least `minMatches` matched peaks, scored by
`round((matched/|P|)·(1 − avgError/τ)·1000)/1000`. -/
def scoreDatabase (db : List (List Nat × Entry)) (peaks : List Rat)
    (tolerance : Rat) (minMatches : Nat) (targetNucleus : String) :
    List Candidate :=
  (buildAccums db peaks tolerance targetNucleus).foldl
    (scoreStep peaks tolerance minMatches) []

/-- Comparator of `estimateFromSpectra`'s final sort, as a strict `lt`
(`cmp a b < 0` for `(a, b) => b.score - a.score || b.matchedPeaks -
a.matchedPeaks`). -/
def candLt (a b : Candidate) : Bool :=
  if b.score - a.score ≠ 0 then decide (b.score - a.score < 0)
  else decide ((b.matchedPeaks : Int) - (a.matchedPeaks : Int) < 0)

/-- Source `estimateFromSpectra`: empty peak lists short-circuit to the
empty result; otherwise the full database is scored, sorted descending by
score with ties broken by matched-peak count, and truncated to
`maxResults`. -/
def estimateFromSpectra (db : List (List Nat × Entry)) (peaks : List Rat)
    (tolerance : Rat) (minMatches : Nat) (maxResults : Nat)
    (targetNucleus : String) : List Candidate :=
  if peaks.length = 0 then []
  else
    let candidates := scoreDatabase db peaks tolerance minMatches targetNucleus
    (jsSort candLt candidates).take maxResults

end VamosHose

namespace VamosHose

section SortLemmas

variable {α : Type}

/-- Elements of a fuel merge come from one of the two runs. -/
theorem mem_jsMergeF (lt : α → α → Bool) {x : α} :
    ∀ (fuel : Nat) (l r : List α), x ∈ jsMergeF lt fuel l r → x ∈ l ∨ x ∈ r := by
  intro fuel
  induction fuel with
  | zero =>
    intro l r h
    match l, r with
    | [], r => exact Or.inr h
    | a :: l', [] => exact Or.inl h
    | a :: l', b :: r' =>
      simp only [jsMergeF] at h
      simp only [List.mem_cons, List.mem_append] at h ⊢
      tauto
  | succ fuel ih =>
    intro l r h
    match l, r with
    | [], r => exact Or.inr h
    | a :: l', [] => exact Or.inl h
    | a :: l', b :: r' =>
      simp only [jsMergeF] at h
      by_cases hlt : lt b a
      · simp only [hlt, if_pos] at h
        rcases List.mem_cons.1 h with h' | h'
        · subst h'; simp
        · rcases ih (a :: l') r' h' with h'' | h''
          · exact Or.inl h''
          · exact Or.inr (List.mem_cons_of_mem b h'')
      · simp only [hlt, Bool.false_eq_true, if_neg, not_false_iff] at h
        rcases List.mem_cons.1 h with h' | h'
        · subst h'; simp
        · rcases ih l' (b :: r') h' with h'' | h''
          · exact Or.inl (List.mem_cons_of_mem a h'')
          · exact Or.inr h''

/-- Elements of a merge come from one of the two runs. -/
theorem mem_jsMerge (lt : α → α → Bool) {x : α} {l r : List α}
    (h : x ∈ jsMerge lt l r) : x ∈ l ∨ x ∈ r :=
  mem_jsMergeF lt _ l r h

/-- Merging two runs sorted under `le x y := lt y x = false` yields a
sorted run when the fuel covers both lengths. -/
theorem sorted_jsMergeF (lt : α → α → Bool)
    (hasym : ∀ a b, lt a b = true → lt b a = false)
    (htrans : ∀ a b c, lt b a = false → lt c b = false → lt c a = false) :
    ∀ (fuel : Nat) (l r : List α), l.length + r.length ≤ fuel →
      l.Pairwise (fun x y => lt y x = false) →
      r.Pairwise (fun x y => lt y x = false) →
      (jsMergeF lt fuel l r).Pairwise (fun x y => lt y x = false) := by
  intro fuel
  induction fuel with
  | zero =>
    intro l r hfuel hl hr
    match l, r with
    | [], r => exact hr
    | a :: l', [] => exact hl
    | a :: l', b :: r' => simp at hfuel
  | succ fuel ih =>
    intro l r hfuel hl hr
    match l, r with
    | [], r => exact hr
    | a :: l', [] => exact hl
    | a :: l', b :: r' =>
      simp only [jsMergeF]
      rcases List.pairwise_cons.1 hl with ⟨ha, hl'⟩
      rcases List.pairwise_cons.1 hr with ⟨hb, hr'⟩
      by_cases hlt : lt b a
      · simp only [hlt, if_pos]
        refine List.pairwise_cons.2 ⟨?_, ?_⟩
        · intro x hx
          rcases mem_jsMergeF lt fuel (a :: l') r' hx with hx' | hx'
          · rcases List.mem_cons.1 hx' with h' | h'
            · exact h' ▸ hasym b a hlt
            · exact htrans b a x (hasym b a hlt) (ha x h')
          · exact hb x hx'
        · refine ih (a :: l') r' ?_ hl hr'
          simp only [List.length_cons] at hfuel ⊢
          omega
      · have hba : lt b a = false := Bool.eq_false_iff.2 hlt
        simp only [hba, Bool.false_eq_true, if_neg, not_false_iff]
        refine List.pairwise_cons.2 ⟨?_, ?_⟩
        · intro x hx
          rcases mem_jsMergeF lt fuel l' (b :: r') hx with hx' | hx'
          · exact ha x hx'
          · rcases List.mem_cons.1 hx' with h' | h'
            · exact h' ▸ hba
            · exact htrans a b x hba (hb x h')
        · refine ih l' (b :: r') ?_ hl' hr
          simp only [List.length_cons] at hfuel ⊢
          omega

/-- Merging two sorted runs yields a sorted run. -/
theorem sorted_jsMerge (lt : α → α → Bool)
    (hasym : ∀ a b, lt a b = true → lt b a = false)
    (htrans : ∀ a b c, lt b a = false → lt c b = false → lt c a = false)
    {l r : List α}
    (hl : l.Pairwise (fun x y => lt y x = false))
    (hr : r.Pairwise (fun x y => lt y x = false)) :
    (jsMerge lt l r).Pairwise (fun x y => lt y x = false) :=
  sorted_jsMergeF lt hasym htrans _ l r le_rfl hl hr

/-- A merge pass preserves "every run is sorted". -/
theorem sorted_jsMergePass (lt : α → α → Bool)
    (hasym : ∀ a b, lt a b = true → lt b a = false)
    (htrans : ∀ a b c, lt b a = false → lt c b = false → lt c a = false) :
    ∀ runs : List (List α),
      (∀ run ∈ runs, run.Pairwise (fun x y => lt y x = false)) →
      ∀ run ∈ jsMergePass lt runs,
        run.Pairwise (fun x y => lt y x = false)
  | [], hall, run, hrun => by simp [jsMergePass] at hrun
  | [a], hall, run, hrun => by
    simp only [jsMergePass] at hrun
    exact hall run hrun
  | a :: b :: rest, hall, run, hrun => by
    simp only [jsMergePass, List.mem_cons] at hrun
    rcases hrun with h | h
    · subst h
      exact sorted_jsMerge lt hasym htrans (hall a (by simp)) (hall b (by simp))
    · exact sorted_jsMergePass lt hasym htrans rest
        (fun r hr => hall r (by simp [hr])) run h

/-- A merge pass preserves flattened membership. -/
theorem mem_jsMergePass (lt : α → α → Bool) {x : α} :
    ∀ runs : List (List α),
      x ∈ (jsMergePass lt runs).flatten → x ∈ runs.flatten
  | [], h => by simpa [jsMergePass] using h
  | [a], h => by simpa [jsMergePass] using h
  | a :: b :: rest, h => by
    simp only [jsMergePass, List.flatten_cons, List.mem_append] at h ⊢
    rcases h with h | h
    · rcases mem_jsMerge lt h with h' | h'
      · exact Or.inl h'
      · exact Or.inr (Or.inl h')
    · rcases mem_jsMergePass lt rest h with h'
      simp only [List.mem_flatten] at h'
      rcases h' with ⟨run, hrun, hx⟩
      exact Or.inr (by simp only [List.mem_flatten]; exact Or.inr ⟨run, hrun, hx⟩)

/-- The iterated merge of sorted runs is sorted, whatever the fuel. -/
theorem sorted_jsSortRuns (lt : α → α → Bool)
    (hasym : ∀ a b, lt a b = true → lt b a = false)
    (htrans : ∀ a b c, lt b a = false → lt c b = false → lt c a = false) :
    ∀ (fuel : Nat) (runs : List (List α)),
      (∀ run ∈ runs, run.Pairwise (fun x y => lt y x = false)) →
      (jsSortRuns lt fuel runs).Pairwise (fun x y => lt y x = false) := by
  intro fuel
  induction fuel with
  | zero =>
    intro runs hall
    match runs with
    | [] => simp [jsSortRuns]
    | [r] => exact hall r (by simp)
    | r :: s :: rest => exact hall r (by simp)
  | succ fuel ih =>
    intro runs hall
    match runs with
    | [] => simp [jsSortRuns]
    | [r] => exact hall r (by simp)
    | r :: s :: rest =>
      exact ih (jsMergePass lt (r :: s :: rest))
        (sorted_jsMergePass lt hasym htrans _ hall)

/-- Elements of the iterated merge come from the flattened runs. -/
theorem mem_jsSortRuns (lt : α → α → Bool) {x : α} :
    ∀ (fuel : Nat) (runs : List (List α)),
      x ∈ jsSortRuns lt fuel runs → x ∈ runs.flatten := by
  intro fuel
  induction fuel with
  | zero =>
    intro runs h
    match runs with
    | [] => simpa [jsSortRuns] using h
    | [r] =>
      simp only [jsSortRuns] at h
      simp [h]
    | r :: s :: rest =>
      simp only [jsSortRuns] at h
      simp [h]
  | succ fuel ih =>
    intro runs h
    match runs with
    | [] => simpa [jsSortRuns] using h
    | [r] =>
      simp only [jsSortRuns] at h
      simp [h]
    | r :: s :: rest =>
      simp only [jsSortRuns] at h
      exact mem_jsMergePass lt _ (ih _ h)

/-- The engine sort model returns a sorted list. -/
theorem sorted_jsSort (lt : α → α → Bool)
    (hasym : ∀ a b, lt a b = true → lt b a = false)
    (htrans : ∀ a b c, lt b a = false → lt c b = false → lt c a = false)
    (xs : List α) :
    (jsSort lt xs).Pairwise (fun x y => lt y x = false) := by
  refine sorted_jsSortRuns lt hasym htrans _ _ ?_
  intro run hrun
  rcases List.mem_map.1 hrun with ⟨a, _, rfl⟩
  simp

/-- Elements of the engine sort come from the input list. -/
theorem mem_jsSort (lt : α → α → Bool) {x : α} {xs : List α}
    (h : x ∈ jsSort lt xs) : x ∈ xs := by
  have := mem_jsSortRuns lt _ _ h
  simpa using this

end SortLemmas

end VamosHose

namespace VamosHose

/-- Molecule produced by the external parser for the SMILES
`c1ccc2ccccc2c1` (naphthalene): fused aromatic rings, fusion atoms 3 and
8 without hydrogens. -/
def naphthaleneMol : Mol :=
  { elems := ["C", "C", "C", "C", "C", "C", "C", "C", "C", "C"],
    charges := [0, 0, 0, 0, 0, 0, 0, 0, 0, 0],
    implHs := [1, 1, 1, 0, 1, 1, 1, 1, 0, 1],
    bonds := [⟨0, 1, 1, true⟩, ⟨1, 2, 1, true⟩, ⟨2, 3, 1, true⟩,
      ⟨3, 4, 1, true⟩, ⟨4, 5, 1, true⟩, ⟨5, 6, 1, true⟩, ⟨6, 7, 1, true⟩,
      ⟨7, 8, 1, true⟩, ⟨8, 3, 1, true⟩, ⟨8, 9, 1, true⟩, ⟨9, 0, 1, true⟩] }

/-- Undirected normal form of a mapped bond. -/
def normBond (x y o : Nat) (ar : Bool) : Nat × Nat × Nat × Bool :=
  if x ≤ y then (x, y, o, ar) else (y, x, o, ar)

/-- Decidable test that `perm` (as the list `i ↦ perm[i]`) is a graph
automorphism of `m`: a permutation of the atom indices preserving element,
charge, implicit-hydrogen count, and the multiset of bonds with their
orders and aromaticity flags.  Equal images under such a map are the
formal reading of "topologically equivalent atoms". -/
def molAutomorphismB (m : Mol) (perm : List Nat) : Bool :=
  let n := m.getAllAtoms
  decide (perm.length = n) &&
  (List.range n).all (fun i => decide (perm.getD i 0 < n)) &&
  decide perm.Nodup &&
  (List.range n).all (fun i =>
    decide (m.getAtomLabel (perm.getD i 0) = m.getAtomLabel i) &&
    decide (m.getAtomCharge (perm.getD i 0) = m.getAtomCharge i) &&
    decide (m.getImplicitHydrogens (perm.getD i 0)
      = m.getImplicitHydrogens i)) &&
  decide (List.Perm
    (m.bonds.map fun b =>
      normBond (perm.getD b.a 0) (perm.getD b.b 0) b.order b.aromatic)
    (m.bonds.map fun b => normBond b.a b.b b.order b.aromatic))

/-- Reflection automorphism of `naphthaleneMol` exchanging the two rings:
(0 6)(1 5)(2 4)(7 9), fixing the fusion atoms 3 and 8. -/
def naphPerm : List Nat := [6, 5, 4, 3, 2, 1, 0, 9, 8, 7]

/-- C1: the HOSE generator reproduces the reference byte-exact strings of
the spec's scenarios — propane (`CCC`) atoms 0, 1, 2 and acetone
(`CC(=O)C`) atoms 0, 1, at `maxSpheres = 4`. -/
theorem hose_reference_scenarios :
    generateHoseCode propaneMol 0 4 = "HHHC(HHC/HHH/)" ∧
    generateHoseCode propaneMol 1 4 = "HHCC(HHH,HHH//)" ∧
    generateHoseCode propaneMol 2 4 = "HHHC(HHC/HHH/)" ∧
    generateHoseCode acetoneMol 0 4 = "HHHC(=OC/,HHH/)" ∧
    generateHoseCode acetoneMol 1 4 = "=OCC(,HHH,HHH//)" := by
  exact ⟨by decide, by decide, by decide, by decide, by decide⟩

/-- C2 counterexample: naphthalene atoms 2 and 4 are topologically
equivalent — the explicit map `naphPerm` is a graph automorphism sending
2 to 4 — yet their generated HOSE codes differ, refuting the universal
symmetry claim. -/
theorem hose_symmetry_counterexample :
    molAutomorphismB naphthaleneMol naphPerm = true ∧
    naphPerm.getD 2 0 = 4 ∧
    generateHoseCode naphthaleneMol 2 4 ≠ generateHoseCode naphthaleneMol 4 4 := by
  exact ⟨by decide, by decide, by decide⟩

/-- C2 amended: the spec's example molecules do behave as claimed — all
six benzene atoms yield one identical code, and the equivalent toluene
ring atoms 2/6 and 3/5 yield pairwise identical codes. -/
theorem hose_symmetry_examples :
    (List.range 6).map (fun i => generateHoseCode benzeneMol i 4)
      = List.replicate 6 "H*C*C(H,H,*C,*C/H,H,*C,*&/H*&)" ∧
    generateHoseCode tolueneMol 2 4 = generateHoseCode tolueneMol 6 4 ∧
    generateHoseCode tolueneMol 3 4 = generateHoseCode tolueneMol 5 4 := by
  exact ⟨by decide, by decide, by decide⟩

end VamosHose

namespace VamosHose

/-- Re-truncating after a 32-bit truncation is the same as truncating the
untruncated sum: `jsToInt32 a ≡ a` modulo `2^32`. -/
theorem jsToInt32_shift (a k : Int) :
    jsToInt32 (jsToInt32 a + k) = jsToInt32 (a + k) := by
  unfold jsToInt32
  have h : (a + 2 ^ 31) % 2 ^ 32
      = a + 2 ^ 31 - 2 ^ 32 * ((a + 2 ^ 31) / 2 ^ 32) := by
    rw [Int.emod_def]
  rw [h]
  have h2 : a + 2 ^ 31 - 2 ^ 32 * ((a + 2 ^ 31) / 2 ^ 32) - 2 ^ 31 + k + 2 ^ 31
      = a + k + 2 ^ 31 + 2 ^ 32 * (-((a + 2 ^ 31) / 2 ^ 32)) := by ring
  rw [h2, Int.add_mul_emod_self_left]

/-- One hash step of the loader equals the spec's single-truncation step. -/
theorem hash_step_eq (h c : Int) :
    jsToInt32 (jsToInt32 (h * 32) - h + c) = jsToInt32 (h * 2 ^ 5 - h + c) := by
  have e1 : jsToInt32 (h * 32) - h + c = jsToInt32 (h * 32) + (c - h) := by ring
  have e2 : h * 32 + (c - h) = h * 2 ^ 5 - h + c := by ring
  rw [e1, jsToInt32_shift, e2]

/-- The two hash folds agree pointwise for every starting accumulator. -/
theorem hash_fold_eq :
    ∀ (units : List Nat) (h : Int),
      units.foldl (fun (h : Int) (c : Nat) =>
        jsToInt32 (jsToInt32 (h * 32) - h + (c : Int))) h
        = units.foldl (fun (h : Int) (c : Nat) =>
          jsToInt32 (h * 2 ^ 5 - h + (c : Int))) h := by
  intro units
  induction units with
  | nil => intro h; rfl
  | cons c rest ih =>
    intro h
    simp only [List.foldl_cons]
    rw [hash_step_eq, ih]

/-- Reading one bucket of a `set` at a valid index. -/
theorem getD_set_list {β : Type} (bs : List β) (idx i : Nat) (v d : β)
    (hidx : idx < bs.length) :
    (bs.set idx v).getD i d = if idx = i then v else bs.getD i d := by
  rw [List.getD_eq_getElem?_getD, List.getD_eq_getElem?_getD]
  by_cases h : idx = i
  · subst h
    rw [List.getElem?_set_self hidx, if_pos rfl]
    rfl
  · rw [List.getElem?_set_ne h, if_neg h]

/-- Bucket membership after the sharding fold, for any starting bucket
array of 256 buckets. -/
theorem shard_fold_mem :
    ∀ (keys : List (List Nat)) (bs : List (List (List Nat))),
      bs.length = 256 →
      ∀ (k : List Nat) (i : Nat), i < 256 →
        (k ∈ (keys.foldl
            (fun bs k =>
              let idx := hashCodeShard k % 256
              bs.set idx (bs.getD idx [] ++ [k])) bs).getD i []
          ↔ k ∈ bs.getD i [] ∨ (k ∈ keys ∧ hashCodeShard k % 256 = i)) := by
  intro keys
  induction keys with
  | nil =>
    intro bs hlen k i hi
    simp
  | cons key rest ih =>
    intro bs hlen k i hi
    have hidx : hashCodeShard key % 256 < bs.length := by
      rw [hlen]; exact Nat.mod_lt _ (by norm_num)
    simp only [List.foldl_cons]
    rw [ih _ (by simp [hlen]) k i hi]
    rw [getD_set_list _ _ _ _ _ hidx]
    by_cases hcase : hashCodeShard key % 256 = i
    · subst hcase
      rw [if_pos rfl]
      constructor
      · rintro (h | h)
        · rcases List.mem_append.1 h with h' | h'
          · exact Or.inl h'
          · have hk : k = key := by simpa using h'
            exact Or.inr ⟨by simp [hk], by rw [hk]⟩
        · exact Or.inr ⟨List.mem_cons_of_mem _ h.1, h.2⟩
      · rintro (h | ⟨hmem, hc⟩)
        · exact Or.inl (List.mem_append.2 (Or.inl h))
        · rcases List.mem_cons.1 hmem with h' | h'
          · exact Or.inl (List.mem_append.2 (Or.inr (by simp [h'])))
          · exact Or.inr ⟨h', hc⟩
    · rw [if_neg hcase]
      constructor
      · rintro (h | h)
        · exact Or.inl h
        · exact Or.inr ⟨List.mem_cons_of_mem _ h.1, h.2⟩
      · rintro (h | ⟨hmem, hc⟩)
        · exact Or.inl h
        · rcases List.mem_cons.1 hmem with h' | h'
          · rw [h'] at hc
            exact absurd hc hcase
          · exact Or.inr ⟨h', hc⟩

/-- C3: the sharding script and the loader assign identical chunk indices,
both equal to the spec's `|fold((h<<5)−h+c) mod 2^32| mod 256`, and a key
stored anywhere lands exactly in the bucket the loader probes. -/
theorem chunk_hash_agreement :
    (∀ units : List Nat, hashCodeShard units = hashCodeDb units) ∧
    (∀ units : List Nat, chunkIndex units = specChunkIdx units) ∧
    (∀ (keys : List (List Nat)) (k : List Nat) (i : Nat), i < 256 →
      (k ∈ (shardBuckets keys).getD i [] ↔ k ∈ keys ∧ chunkIndex k = i)) := by
  refine ⟨fun _ => rfl, ?_, ?_⟩
  · intro units
    unfold chunkIndex specChunkIdx hashCodeDb
    rw [hash_fold_eq]
  · intro keys k i hi
    unfold shardBuckets
    rw [shard_fold_mem keys (List.replicate 256 []) (by simp) k i hi]
    simp only [List.getD_eq_getElem?_getD, List.getElem?_replicate]
    constructor
    · rintro (h | h)
      · simp only [if_pos hi] at h
        simp at h
      · exact ⟨h.1, h.2⟩
    · intro h
      exact Or.inr ⟨h.1, h.2⟩

/-- Concrete key for the hash witness. -/
def exHashKey : List Nat := strUnits "HHHC(HHC/HHH/)"

/-- Witness for C3: the propane HOSE key is found in exactly the loader's
chunk for it. -/
theorem chunk_hash_agreement_witness :
    exHashKey ∈ (shardBuckets [exHashKey]).getD (chunkIndex exHashKey) [] :=
  (chunk_hash_agreement.2.2 [exHashKey] exHashKey (chunkIndex exHashKey)
    (by decide)).mpr ⟨by decide, rfl⟩

end VamosHose

namespace VamosHose

/-- The accumulation loop of `computeWeightedAvg` computes exactly the
filtered sums `Σ avg·cnt` and `Σ cnt`, from any starting accumulator. -/
theorem weighted_fold_eq :
    ∀ (l : List (String × SolventStats)) (p : Rat × Rat),
      l.foldl
        (fun (st : Rat × Rat) kv =>
          if kv.1 = "n" ∨ kv.1 = "s" then st
          else (st.1 + kv.2.avg * kv.2.cnt, st.2 + kv.2.cnt)) p
      = (p.1 + (l.filter fun kv => ¬(kv.1 = "n" ∨ kv.1 = "s")).foldr
            (fun kv acc => kv.2.avg * kv.2.cnt + acc) 0,
         p.2 + (l.filter fun kv => ¬(kv.1 = "n" ∨ kv.1 = "s")).foldr
            (fun kv acc => kv.2.cnt + acc) 0) := by
  intro l
  induction l with
  | nil => intro p; simp
  | cons kv t ih =>
    intro p
    by_cases hkv : kv.1 = "n" ∨ kv.1 = "s"
    · have hfilter : (decide ¬(kv.1 = "n" ∨ kv.1 = "s")) = false := by
        simp [hkv]
      simp only [List.foldl_cons, if_pos hkv, List.filter_cons, hfilter,
        Bool.false_eq_true, if_neg, not_false_iff]
      exact ih p
    · have hfilter : (decide ¬(kv.1 = "n" ∨ kv.1 = "s")) = true := by
        simp [hkv]
      simp only [List.foldl_cons, if_neg hkv, List.filter_cons, hfilter,
        if_pos, List.foldr_cons]
      rw [ih]
      refine Prod.ext ?_ ?_ <;> simp <;> ring

/-- C4: `computeWeightedAvg` equals `round10(Σ avg·count / Σ count)` over
the solvent submaps, and a zero total count yields exactly 0 (in the
rational model, where division by zero is zero, the identity also covers
the degenerate case). -/
theorem weighted_avg_identity :
    (∀ e : Entry,
      computeWeightedAvg e = round10 (entryWeightedSum e / entryTotalCnt e)) ∧
    (∀ e : Entry, entryTotalCnt e = 0 → computeWeightedAvg e = 0) := by
  have key : ∀ e : Entry,
      computeWeightedAvg e = round10 (entryWeightedSum e / entryTotalCnt e) := by
    intro e
    unfold computeWeightedAvg entryWeightedSum entryTotalCnt round10
    rw [weighted_fold_eq]
    simp only [zero_add]
    by_cases hz : (e.solvents.filter fun kv => ¬(kv.1 = "n" ∨ kv.1 = "s")).foldr
        (fun kv acc => kv.2.cnt + acc) 0 = 0
    · rw [if_pos hz, hz, div_zero, mul_zero]
      unfold jsRound
      rw [round_zero]
      norm_num
    · rw [if_neg hz, mul_comm]
  refine ⟨key, fun e hz => ?_⟩
  rw [key e, hz, div_zero]
  unfold round10 jsRound
  rw [mul_zero, round_zero]
  norm_num

/-- Entry with no solvent submaps, for the zero-count witness. -/
def exEmptyEntry : Entry := { n := "C", s := "CC", solvents := [] }

/-- Witness for C4: the empty entry has zero total count and weighted
average exactly 0. -/
theorem weighted_avg_identity_witness :
    entryTotalCnt exEmptyEntry = 0 ∧ computeWeightedAvg exEmptyEntry = 0 :=
  ⟨by decide, weighted_avg_identity.2 exEmptyEntry (by decide)⟩

end VamosHose

namespace VamosHose

/-- Last occurrence of one character, in option form. -/
def lastOccC (c : Char) : List Char → Option Nat
  | [] => none
  | a :: as =>
    match lastOccC c as with
    | some i => some (i + 1)
    | none => if a = c then some 0 else none

/-- Option-to-Int view of an occurrence (−1 for "absent"). -/
def occInt : Option Nat → Int
  | none => -1
  | some i => (i : Int)

/-- `lastIndexOf` agrees with the option-valued last occurrence. -/
theorem lastIndexOfC_eq (c : Char) :
    ∀ s : List Char, lastIndexOfC c s = occInt (lastOccC c s) := by
  intro s
  induction s with
  | nil => rfl
  | cons a as ih =>
    simp only [lastIndexOfC, lastOccC, ih]
    cases h : lastOccC c as with
    | none =>
      simp only [occInt]
      norm_num
      by_cases hac : a = c
      · simp [hac, occInt]
      · simp [hac, occInt]
    | some i =>
      simp only [occInt]
      rw [if_pos (by omega)]
      push_cast
      ring

/-- Maximum of two occurrence options. -/
def occMax : Option Nat → Option Nat → Option Nat
  | none, y => y
  | some i, none => some i
  | some i, some j => some (max i j)

/-- The spec's rightmost-delimiter scan is the maximum of the three
per-character last occurrences. -/
theorem specRightmostDelim_eq :
    ∀ s : List Char,
      specRightmostDelim s
        = occMax (lastOccC '/' s) (occMax (lastOccC ')' s) (lastOccC '(' s)) := by
  intro s
  induction s with
  | nil => rfl
  | cons a as ih =>
    simp only [specRightmostDelim, lastOccC, ih]
    cases h1 : lastOccC '/' as <;> cases h2 : lastOccC ')' as <;>
      cases h3 : lastOccC '(' as <;>
      by_cases ha1 : a = '/' <;> by_cases ha2 : a = ')' <;>
      by_cases ha3 : a = '(' <;>
      simp [h1, h2, h3, ha1, ha2, ha3, occMax] <;> omega

/-- The source's delimiter index is the Int view of the spec's rightmost
delimiter. -/
theorem lastDelimIdx_eq (s : List Char) :
    lastDelimIdx s = occInt (specRightmostDelim s) := by
  unfold lastDelimIdx
  rw [lastIndexOfC_eq, lastIndexOfC_eq, lastIndexOfC_eq,
    specRightmostDelim_eq]
  cases lastOccC '/' s <;> cases lastOccC ')' s <;>
    cases lastOccC '(' s <;> simp [occMax, occInt] <;> omega

/-- The truncation loops of code and spec agree for every fuel. -/
theorem truncLoop_eq {β : Type} (db : List Char → Option β) :
    ∀ (fuel : Nat) (key : List Char),
      truncLoop db fuel key = specTruncLoop db fuel key := by
  intro fuel
  induction fuel with
  | zero => intro key; rfl
  | succ fuel ih =>
    intro key
    simp only [truncLoop, specTruncLoop, lastDelimIdx_eq]
    cases h : specRightmostDelim key with
    | none => simp [occInt]
    | some i =>
      cases i with
      | zero => simp [occInt]
      | succ i' =>
        simp only [occInt]
        rw [if_neg (by omega), if_neg (Nat.succ_ne_zero i')]
        have htn : ((i' + 1 : Nat) : Int).toNat = i' + 1 := by omega
        rw [htn]
        cases db (key.take (i' + 1 + 1)) with
        | some hit => rfl
        | none =>
          cases db (key.take (i' + 1)) with
          | some hit => rfl
          | none => rw [ih]

/-- The result-collection fold of `lookupNmrShifts` is a `filterMap`. -/
theorem lookupShifts_foldl {β : Type} (db : List Char → Option β) :
    ∀ (entries : List (String × List Char)) (acc : List (LookupResult β)),
      entries.foldl
        (fun acc e =>
          match resolveAtom db e.2 with
          | some r => acc ++ [{ atom := e.1, hose := r.1, hit := r.2 }]
          | none => acc) acc
      = acc ++ (entries.filterMap fun e =>
          (resolveAtom db e.2).map fun r =>
            { atom := e.1, hose := r.1, hit := r.2 }) := by
  intro entries
  induction entries with
  | nil => intro acc; simp
  | cons e rest ih =>
    intro acc
    simp only [List.foldl_cons, List.filterMap_cons]
    cases h : resolveAtom db e.2 with
    | none =>
      simp only [h, Option.map_none']
      exact ih acc
    | some r =>
      simp only [h, Option.map_some']
      rw [ih]
      simp

/-- C5: per-atom resolution follows exactly the spec's fallback sequence
(exact query, eight-iteration delimiter truncation preferring the
delimiter-keeping prefix, then one leading-H-stripped query), and atoms
whose every query misses are silently omitted from the result list. -/
theorem lookup_fallback_spec :
    (∀ (β : Type) (db : List Char → Option β) (hose : List Char),
      resolveAtom db hose = specResolve db hose) ∧
    (∀ (β : Type) (db : List Char → Option β)
      (entries : List (String × List Char)),
      lookupShifts db entries = entries.filterMap fun e =>
        (resolveAtom db e.2).map fun r =>
          { atom := e.1, hose := r.1, hit := r.2 }) := by
  constructor
  · intro β db hose
    unfold resolveAtom specResolve
    rw [truncLoop_eq]
  · intro β db entries
    unfold lookupShifts
    rw [lookupShifts_foldl]
    simp

end VamosHose

namespace VamosHose

/-- A list is a Boolean prefix of itself. -/
theorem isPrefB_self {α : Type} [DecidableEq α] :
    ∀ l : List α, isPrefB l l = true := by
  intro l
  induction l with
  | nil => rfl
  | cons a t ih => simp [isPrefB, ih]

/-- A `take` is a Boolean prefix. -/
theorem isPrefB_take {α : Type} [DecidableEq α] :
    ∀ (t : List α) (k : Nat), isPrefB (t.take k) t = true := by
  intro t
  induction t with
  | nil => intro k; simp [isPrefB]
  | cons a s ih =>
    intro k
    cases k with
    | zero => simp [isPrefB]
    | succ k' => simp [isPrefB, ih k']

/-- Boolean prefix is transitive. -/
theorem isPrefB_trans {α : Type} [DecidableEq α] :
    ∀ (a b c : List α), isPrefB a b = true → isPrefB b c = true →
      isPrefB a c = true := by
  intro a
  induction a with
  | nil => intro b c _ _; rfl
  | cons x a' ih =>
    intro b c hab hbc
    cases b with
    | nil => simp [isPrefB] at hab
    | cons y b' =>
      cases c with
      | nil => simp [isPrefB] at hbc
      | cons z c' =>
        simp only [isPrefB, Bool.and_eq_true, decide_eq_true_eq] at hab hbc ⊢
        exact ⟨hab.1.trans hbc.1, ih b' c' hab.2 hbc.2⟩

/-- Every hit of the truncation loop is a prefix of the key it started
from. -/
theorem truncLoop_pref {β : Type} (db : List Char → Option β) :
    ∀ (fuel : Nat) (t p : List Char) (e : β),
      truncLoop db fuel t = some (p, e) → isPrefB p t = true := by
  intro fuel
  induction fuel with
  | zero => intro t p e h; simp [truncLoop] at h
  | succ fuel ih =>
    intro t p e h
    simp only [truncLoop] at h
    by_cases hidx : lastDelimIdx t ≤ 0
    · rw [if_pos hidx] at h
      simp at h
    · rw [if_neg hidx] at h
      cases h1 : db (t.take ((lastDelimIdx t).toNat + 1)) with
      | some hit =>
        rw [h1] at h
        have := Option.some.inj h
        have hp : p = t.take ((lastDelimIdx t).toNat + 1) :=
          congrArg Prod.fst this.symm
        exact hp ▸ isPrefB_take t _
      | none =>
        rw [h1] at h
        cases h2 : db (t.take (lastDelimIdx t).toNat) with
        | some hit =>
          rw [h2] at h
          have := Option.some.inj h
          have hp : p = t.take (lastDelimIdx t).toNat :=
            congrArg Prod.fst this.symm
          exact hp ▸ isPrefB_take t _
        | none =>
          rw [h2] at h
          exact isPrefB_trans p (t.take (lastDelimIdx t).toNat) t
            (ih _ p e h) (isPrefB_take t _)

/-- Database that knows only the stripped key `C`, demonstrating the
leading-H fallback. -/
def exDbStrip : List Char → Option Unit :=
  fun k => if k = ['C'] then some () else none

/-- C6 counterexample: for the generated key `HHC` the lookup resolves via
the leading-H strip to the key `C`, which is not a prefix of the generated
key — refuting "the chosen HOSE is a prefix (up to delimiter handling) of
the generated one" as stated. -/
theorem lookup_prefix_counterexample :
    resolveAtom exDbStrip ['H', 'H', 'C'] = some (['C'], ()) ∧
    isPrefB ['C'] ['H', 'H', 'C'] = false := by
  exact ⟨by decide, by decide⟩

/-- C6 amended: an exact hit is always preferred (a key present verbatim
resolves to itself), and the chosen HOSE is either a prefix of the
generated one (exact or truncated hits) or the generated one with its
maximal leading run of `H` removed (the leading-H fallback). -/
theorem lookup_monotonicity_amended :
    (∀ (β : Type) (db : List Char → Option β) (hose : List Char) (e : β),
      db hose = some e → resolveAtom db hose = some (hose, e)) ∧
    (∀ (β : Type) (db : List Char → Option β) (hose p : List Char) (e : β),
      resolveAtom db hose = some (p, e) →
        isPrefB p hose = true ∨ p = hose.dropWhile (· = 'H')) := by
  constructor
  · intro β db hose e h
    unfold resolveAtom
    rw [h]
  · intro β db hose p e hres
    unfold resolveAtom at hres
    cases hdb : db hose with
    | some hit =>
      rw [hdb] at hres
      have := Option.some.inj hres
      have hp : hose = p := congrArg Prod.fst this
      exact Or.inl (hp ▸ isPrefB_self hose)
    | none =>
      rw [hdb] at hres
      cases htr : truncLoop db 8 hose with
      | some r =>
        rw [htr] at hres
        have hr : r = (p, e) := Option.some.inj hres
        exact Or.inl (truncLoop_pref db 8 hose p e (hr ▸ htr))
      | none =>
        rw [htr] at hres
        by_cases hh : hose.head? = some 'H'
        · rw [if_pos hh] at hres
          cases hdw : db (hose.dropWhile (· = 'H')) with
          | some hit =>
            rw [hdw] at hres
            have := Option.some.inj hres
            have hp : hose.dropWhile (· = 'H') = p :=
              congrArg Prod.fst this
            exact Or.inr hp.symm
          | none =>
            rw [hdw] at hres
            simp at hres
        · rw [if_neg hh] at hres
          simp at hres

/-- Database containing the exact two-character key, for the witness. -/
def exDbExact : List Char → Option Nat :=
  fun k => if k = ['H', 'C'] then some 7 else none

/-- Witness for the amended C6: the exact key resolves to itself. -/
theorem lookup_monotonicity_amended_witness :
    resolveAtom exDbExact ['H', 'C'] = some (['H', 'C'], 7) :=
  lookup_monotonicity_amended.1 Nat exDbExact ['H', 'C'] 7 (by decide)

end VamosHose

namespace VamosHose

/-- Element rank table as the design document states it (§6): H, comma and
ring-closure sentinels, the eleven tabulated elements, and
`800 000 − atomicMass` for anything else. -/
def specElementRank (e : String) : Int :=
  if e = "H" then 799999
  else if e = "," then 1000
  else if e = "&" then 1100
  else if e = "C" then 9000
  else if e = "O" then 8900
  else if e = "N" then 8800
  else if e = "S" then 8700
  else if e = "P" then 8600
  else if e = "Si" then 8500
  else if e = "B" then 8400
  else if e = "F" then 8300
  else if e = "Cl" then 8200
  else if e = "Br" then 8100
  else if e = "I" then 7900
  else 800000 - (atomicMass e : Int)

/-- Bond rank as the claim states it: single = 0, double = 200 000,
triple = 300 000, aromatic = 100 000, comma (−1) = 50 000, anything else
adds nothing. -/
def specBondRank (bt : Int) : Int :=
  if bt = 1 then 0
  else if bt = 2 then 200000
  else if bt = 3 then 300000
  else if bt = 4 then 100000
  else if bt = -1 then 50000
  else 0

/-- One-node scoring as the claim states it: ring-closure rank 1100 and
the flag for an already-visited real atom, element rank otherwise, bond
rank in both cases. -/
def specScoreNode (visited : List Nat) (n : TreeNode) : TreeNode :=
  if n.atomIdx ≥ 0 ∧ visited.contains n.atomIdx.toNat then
    { n with score := n.score + 1100 + specBondRank n.bondType,
             isRingClosure := true }
  else
    { n with score := n.score + specElementRank n.element
               + specBondRank n.bondType }

/-- The source's element rank agrees with the spec's table everywhere. -/
theorem getElementRank_eq_spec (e : String) :
    getElementRank e = specElementRank e := by
  by_cases h1 : e = "H"
  · subst h1; decide
  by_cases h2 : e = ","
  · subst h2; decide
  by_cases h3 : e = "&"
  · subst h3; decide
  by_cases h4 : e = "C"
  · subst h4; decide
  by_cases h5 : e = "O"
  · subst h5; decide
  by_cases h6 : e = "N"
  · subst h6; decide
  by_cases h7 : e = "S"
  · subst h7; decide
  by_cases h8 : e = "P"
  · subst h8; decide
  by_cases h9 : e = "Si"
  · subst h9; decide
  by_cases h10 : e = "B"
  · subst h10; decide
  by_cases h11 : e = "F"
  · subst h11; decide
  by_cases h12 : e = "Cl"
  · subst h12; decide
  by_cases h13 : e = "Br"
  · subst h13; decide
  by_cases h14 : e = "I"
  · subst h14; decide
  have htbl : elementRankTbl e = none := by
    unfold elementRankTbl
    split <;> simp_all
  unfold getElementRank specElementRank
  rw [htbl]
  simp [h1, h2, h3, h4, h5, h6, h7, h8, h9, h10, h11, h12, h13, h14]

/-- Bond-rank branch of the source scoring equals the spec's bond rank. -/
theorem bondStep_eq (bt : Int) (s : Int) :
    (if 0 ≤ bt ∧ bt ≤ 4 then s + bondRanking bt
     else if bt = -1 then s + 50000
     else s) = s + specBondRank bt := by
  by_cases h0 : bt = 0
  · rw [h0, if_pos (by norm_num)]; rfl
  by_cases hb1 : bt = 1
  · rw [hb1, if_pos (by norm_num)]; rfl
  by_cases hb2 : bt = 2
  · rw [hb2, if_pos (by norm_num)]; rfl
  by_cases hb3 : bt = 3
  · rw [hb3, if_pos (by norm_num)]; rfl
  by_cases hb4 : bt = 4
  · rw [hb4, if_pos (by norm_num)]; rfl
  by_cases hbm : bt = -1
  · rw [hbm, if_neg (by norm_num), if_pos rfl]; rfl
  · have hrange : ¬(0 ≤ bt ∧ bt ≤ 4) := by omega
    rw [if_neg hrange, if_neg hbm]
    unfold specBondRank
    rw [if_neg hb1, if_neg hb2, if_neg hb3, if_neg hb4, if_neg hbm]
    ring

/-- On the in-range bond types the source's table lookup equals the
spec's bond rank. -/
theorem bondRanking_eq_spec (bt : Int) (h1 : 0 ≤ bt) (h2 : bt ≤ 4) :
    bondRanking bt = specBondRank bt := by
  interval_cases bt <;> rfl

/-- The source's combined scoring of one node equals the spec's one-node
scoring. -/
theorem scoreNode_eq (visited : List Nat) (node : TreeNode) :
    (if 0 ≤ (if node.atomIdx ≥ 0 ∧ visited.contains node.atomIdx.toNat then
        { node with score := node.score + RING_RANK, isRingClosure := true }
      else
        { node with score := node.score + getElementRank node.element }).bondType
        ∧ (if node.atomIdx ≥ 0 ∧ visited.contains node.atomIdx.toNat then
        { node with score := node.score + RING_RANK, isRingClosure := true }
      else
        { node with score := node.score + getElementRank node.element }).bondType ≤ 4 then
      { (if node.atomIdx ≥ 0 ∧ visited.contains node.atomIdx.toNat then
        { node with score := node.score + RING_RANK, isRingClosure := true }
      else
        { node with score := node.score + getElementRank node.element }) with
        score := (if node.atomIdx ≥ 0 ∧ visited.contains node.atomIdx.toNat then
        { node with score := node.score + RING_RANK, isRingClosure := true }
      else
        { node with score := node.score + getElementRank node.element }).score
          + bondRanking (if node.atomIdx ≥ 0 ∧ visited.contains node.atomIdx.toNat then
        { node with score := node.score + RING_RANK, isRingClosure := true }
      else
        { node with score := node.score + getElementRank node.element }).bondType }
     else if (if node.atomIdx ≥ 0 ∧ visited.contains node.atomIdx.toNat then
        { node with score := node.score + RING_RANK, isRingClosure := true }
      else
        { node with score := node.score + getElementRank node.element }).bondType = -1 then
      { (if node.atomIdx ≥ 0 ∧ visited.contains node.atomIdx.toNat then
        { node with score := node.score + RING_RANK, isRingClosure := true }
      else
        { node with score := node.score + getElementRank node.element }) with
        score := (if node.atomIdx ≥ 0 ∧ visited.contains node.atomIdx.toNat then
        { node with score := node.score + RING_RANK, isRingClosure := true }
      else
        { node with score := node.score + getElementRank node.element }).score + 50000 }
     else (if node.atomIdx ≥ 0 ∧ visited.contains node.atomIdx.toNat then
        { node with score := node.score + RING_RANK, isRingClosure := true }
      else
        { node with score := node.score + getElementRank node.element }))
    = specScoreNode visited node := by
  by_cases hring : node.atomIdx ≥ 0 ∧ visited.contains node.atomIdx.toNat
  · simp only [if_pos hring, specScoreNode, RING_RANK]
    split_ifs with hb hbm
    · simp only [TreeNode.mk.injEq, and_true, true_and, eq_self_iff_true]
      rw [bondRanking_eq_spec _ hb.1 hb.2]
    · simp only [TreeNode.mk.injEq, and_true, true_and, eq_self_iff_true]
      rw [hbm]
      rfl
    · simp only [TreeNode.mk.injEq, and_true, true_and, eq_self_iff_true]
      have hz : specBondRank node.bondType = 0 := by
        unfold specBondRank
        rw [if_neg (by omega), if_neg (by omega), if_neg (by omega),
          if_neg (by omega), if_neg hbm]
      rw [hz, add_zero]
  · simp only [if_neg hring, specScoreNode, getElementRank_eq_spec]
    split_ifs with hb hbm
    · simp only [TreeNode.mk.injEq, and_true, true_and, eq_self_iff_true]
      rw [bondRanking_eq_spec _ hb.1 hb.2]
    · simp only [TreeNode.mk.injEq, and_true, true_and, eq_self_iff_true]
      rw [hbm]
      rfl
    · simp only [TreeNode.mk.injEq, and_true, true_and, eq_self_iff_true]
      have hz : specBondRank node.bondType = 0 := by
        unfold specBondRank
        rw [if_neg (by omega), if_neg (by omega), if_neg (by omega),
          if_neg (by omega), if_neg hbm]
      rw [hz, add_zero]

end VamosHose

namespace VamosHose

/-- One iteration of the scoring loop (in the beta-reduced shape the
rewriting of `List.foldl_cons` produces): the node at `id` is replaced by
its spec-scored version and its real atom index is queued. -/
theorem calcStep_eq (visited : List Nat) (ar : Arena) (toMark : List Nat)
    (id : Nat) :
    (let node := nodeAt (ar, toMark).1 id
     let node1 :=
       if node.atomIdx ≥ 0 ∧ visited.contains node.atomIdx.toNat then
         { node with score := node.score + RING_RANK, isRingClosure := true }
       else
         { node with score := node.score + getElementRank node.element }
     let node2 :=
       if 0 ≤ node1.bondType ∧ node1.bondType ≤ 4 then
         { node1 with score := node1.score + bondRanking node1.bondType }
       else if node1.bondType = -1 then
         { node1 with score := node1.score + 50000 }
       else node1
     let toMark' :=
       if node.atomIdx ≥ 0 then (ar, toMark).2 ++ [node.atomIdx.toNat]
       else (ar, toMark).2
     ((ar, toMark).1.set id node2, toMark'))
    = (ar.set id (specScoreNode visited (nodeAt ar id)),
       if (nodeAt ar id).atomIdx ≥ 0 then
         toMark ++ [(nodeAt ar id).atomIdx.toNat]
       else toMark) := by
  dsimp only []
  rw [scoreNode_eq]

/-- The scoring fold: every listed node is spec-scored against the
entry-time visited set, other arena slots are untouched, and the queued
marks are exactly the real atom indices in list order. -/
theorem calcScores_fold (visited : List Nat) :
    ∀ (ids : List Nat) (ar : Arena) (toMark : List Nat),
      ids.Nodup → (∀ id ∈ ids, id < ar.length) →
      (ids.foldl (fun (st : Arena × List Nat) id =>
        let node := nodeAt st.1 id
        let node1 :=
          if node.atomIdx ≥ 0 ∧ visited.contains node.atomIdx.toNat then
            { node with score := node.score + RING_RANK, isRingClosure := true }
          else
            { node with score := node.score + getElementRank node.element }
        let node2 :=
          if 0 ≤ node1.bondType ∧ node1.bondType ≤ 4 then
            { node1 with score := node1.score + bondRanking node1.bondType }
          else if node1.bondType = -1 then
            { node1 with score := node1.score + 50000 }
          else node1
        let toMark' :=
          if node.atomIdx ≥ 0 then st.2 ++ [node.atomIdx.toNat] else st.2
        (st.1.set id node2, toMark')) (ar, toMark)).1.length = ar.length ∧
      ((ids.foldl (fun (st : Arena × List Nat) id =>
        let node := nodeAt st.1 id
        let node1 :=
          if node.atomIdx ≥ 0 ∧ visited.contains node.atomIdx.toNat then
            { node with score := node.score + RING_RANK, isRingClosure := true }
          else
            { node with score := node.score + getElementRank node.element }
        let node2 :=
          if 0 ≤ node1.bondType ∧ node1.bondType ≤ 4 then
            { node1 with score := node1.score + bondRanking node1.bondType }
          else if node1.bondType = -1 then
            { node1 with score := node1.score + 50000 }
          else node1
        let toMark' :=
          if node.atomIdx ≥ 0 then st.2 ++ [node.atomIdx.toNat] else st.2
        (st.1.set id node2, toMark')) (ar, toMark)).1.getD · default)
        = (fun j => if j ∈ ids then specScoreNode visited (ar.getD j default)
            else ar.getD j default) ∧
      (ids.foldl (fun (st : Arena × List Nat) id =>
        let node := nodeAt st.1 id
        let node1 :=
          if node.atomIdx ≥ 0 ∧ visited.contains node.atomIdx.toNat then
            { node with score := node.score + RING_RANK, isRingClosure := true }
          else
            { node with score := node.score + getElementRank node.element }
        let node2 :=
          if 0 ≤ node1.bondType ∧ node1.bondType ≤ 4 then
            { node1 with score := node1.score + bondRanking node1.bondType }
          else if node1.bondType = -1 then
            { node1 with score := node1.score + 50000 }
          else node1
        let toMark' :=
          if node.atomIdx ≥ 0 then st.2 ++ [node.atomIdx.toNat] else st.2
        (st.1.set id node2, toMark')) (ar, toMark)).2
        = toMark ++ ids.filterMap (fun id =>
            if (ar.getD id default).atomIdx ≥ 0 then
              some (ar.getD id default).atomIdx.toNat
            else none) := by
  intro ids
  induction ids with
  | nil =>
    intro ar toMark _ _
    refine ⟨rfl, ?_, by simp⟩
    funext j
    simp
  | cons id0 rest ih =>
    intro ar toMark hnodup hbound
    have hid0 : id0 < ar.length := hbound id0 (by simp)
    have hrest_nodup : rest.Nodup := (List.nodup_cons.1 hnodup).2
    have hid0_not : id0 ∉ rest := (List.nodup_cons.1 hnodup).1
    have hrest_bound : ∀ id ∈ rest, id < (ar.set id0
        (specScoreNode visited (nodeAt ar id0))).length := by
      intro id hid
      simpa using hbound id (by simp [hid])
    rw [List.foldl_cons, calcStep_eq visited ar toMark id0]
    rcases ih (ar.set id0 (specScoreNode visited (nodeAt ar id0)))
      (if (nodeAt ar id0).atomIdx ≥ 0 then
        toMark ++ [(nodeAt ar id0).atomIdx.toNat] else toMark)
      hrest_nodup hrest_bound with ⟨ihlen, ihget, ihmark⟩
    refine ⟨ihlen.trans (List.length_set ar id0 _), ?_, ?_⟩
    · funext j
      have := congrFun ihget j
      rw [this]
      by_cases hj : j ∈ rest
      · rw [if_pos hj, if_pos (by simp [hj])]
        have hne : id0 ≠ j := fun he => hid0_not (he ▸ hj)
        unfold nodeAt
        rw [getD_set_list _ _ _ _ _ hid0, if_neg hne]
      · rw [if_neg hj]
        by_cases hj0 : j = id0
        · subst hj0
          rw [if_pos (by simp)]
          unfold nodeAt
          rw [getD_set_list _ _ _ _ _ hid0, if_pos rfl]
        · rw [if_neg (by simp [hj, hj0, Ne.symm])]
          rw [getD_set_list _ _ _ _ _ hid0, if_neg (fun he => hj0 he.symm)]
    · rw [ihmark]
      have hfm : rest.filterMap (fun id =>
          if ((ar.set id0 (specScoreNode visited (nodeAt ar id0))).getD id
              default).atomIdx ≥ 0 then
            some ((ar.set id0 (specScoreNode visited (nodeAt ar id0))).getD id
              default).atomIdx.toNat
          else none)
        = rest.filterMap (fun id =>
            if (ar.getD id default).atomIdx ≥ 0 then
              some (ar.getD id default).atomIdx.toNat
            else none) := by
        apply List.filterMap_congr
        intro id hid
        have hne : id0 ≠ id := fun he => hid0_not (he ▸ hid)
        rw [getD_set_list _ _ _ _ _ hid0, if_neg hne]
      rw [hfm]
      simp only [List.filterMap_cons]
      unfold nodeAt
      by_cases hpos : (ar.getD id0 default).atomIdx ≥ 0
      · rw [if_pos hpos, if_pos hpos]
        simp
      · rw [if_neg hpos, if_neg hpos]

/-- C7: pass-2 scoring — an already-visited real atom receives exactly the
ring-closure rank 1100 and the flag, any other node its element rank
(H = 799 999, comma = 1000, the §6 table, `800 000 − atomicMass`
otherwise), the bond rank (single 0, double 200 000, triple 300 000,
aromatic 100 000, comma 50 000) is added in both cases, and the sphere's
real atom indices enter the visited set only after the whole sphere is
scored, so siblings never see each other as visited. -/
theorem calc_scores_spec (ar : Arena) (ids : List Nat) (visited : List Nat)
    (hnodup : ids.Nodup) (hbound : ∀ id ∈ ids, id < ar.length) :
    (∀ id ∈ ids, (calculateNodeScores ar ids visited).1.getD id default
       = specScoreNode visited (ar.getD id default)) ∧
    (∀ j, j ∉ ids →
       (calculateNodeScores ar ids visited).1.getD j default
         = ar.getD j default) ∧
    (calculateNodeScores ar ids visited).2
       = visited ++ ids.filterMap (fun id =>
           if (ar.getD id default).atomIdx ≥ 0 then
             some (ar.getD id default).atomIdx.toNat
           else none) := by
  rcases calcScores_fold visited ids ar [] hnodup hbound with ⟨_, hget, hmark⟩
  refine ⟨?_, ?_, ?_⟩
  · intro id hid
    have := congrFun hget id
    unfold calculateNodeScores
    dsimp only []
    rw [this, if_pos hid]
  · intro j hj
    have := congrFun hget j
    unfold calculateNodeScores
    dsimp only []
    rw [this, if_neg hj]
  · unfold calculateNodeScores
    dsimp only []
    rw [hmark]
    simp

/-- Arena of one carbon node bonded by a double bond, for the witness. -/
def exScoreArena : Arena := [mkNode 3 "C" 2 none 0 4]

/-- Witness for C7 at a concrete arena: the single node is spec-scored and
its atom index is appended to the visited set. -/
theorem calc_scores_spec_witness :
    ((calculateNodeScores exScoreArena [0] [7]).1.getD 0 default
      = specScoreNode [7] (exScoreArena.getD 0 default)) ∧
    (calculateNodeScores exScoreArena [0] [7]).2 = [7, 3] := by
  have h := calc_scores_spec exScoreArena [0] [7] (by decide) (by decide)
  exact ⟨h.1 0 (by decide), by
    rw [h.2.2]
    decide⟩

end VamosHose

namespace VamosHose

/-- Position of the first doubled pair whose `curr` equals its
predecessor's, as an index into the list (1-based position of the later of
the tied pair). -/
def firstTieIdx : List CPair → Option Nat
  | [] => none
  | [_] => none
  | a :: b :: rest =>
    if b.curr = a.curr then some 1
    else (firstTieIdx (b :: rest)).map (· + 1)

/-- Modelled from the spec (§4.2 step 4, as the claim reads it): double
every `curr`, find the lowest-index pair (in sorted order) whose doubled
`curr` equals its predecessor's, and decrement that pair's own `curr` by
one. -/
def specBreakTiesClaim (pairs : List CPair) : List CPair :=
  let d := doubledPairs pairs
  match firstTieIdx d with
  | some i => decPair d i
  | none => d

/-- The tie-break the source actually performs: double every `curr`, find
the lowest-index pair whose doubled `curr` equals its predecessor's, and
decrement the predecessor's `curr` by one. -/
def specBreakTiesAmended (pairs : List CPair) : List CPair :=
  let d := doubledPairs pairs
  match firstTieIdx d with
  | some i => decPair d (i - 1)
  | none => d

/-- Walk of the pending-tie detection: given the previous element and the
current offset (number of elements already placed), the recorded position
of the first detected tie. -/
def auxTie : Option CPair → Nat → List CPair → Option Nat
  | _, _, [] => none
  | none, off, d :: rest => auxTie (some d) (off + 1) rest
  | some q, off, d :: rest =>
    if d.curr = q.curr then some (off - 1)
    else auxTie (some d) (off + 1) rest

/-- The detection walk computes the predecessor position of the first
tie. -/
theorem auxTie_eq :
    ∀ (rest : List CPair) (q : CPair) (k : Nat),
      auxTie (some q) (k + 1) rest
        = (firstTieIdx (q :: rest)).map (fun i => i + k - 1) := by
  intro rest
  induction rest with
  | nil => intro q k; rfl
  | cons d rest ih =>
    intro q k
    simp only [auxTie, firstTieIdx]
    by_cases hd : d.curr = q.curr
    · rw [if_pos hd, if_pos hd]
      simp only [Option.map_some']
      congr 1
      omega
    · rw [if_neg hd, if_neg hd]
      rw [ih d (k + 1)]
      cases hf : firstTieIdx (d :: rest) with
      | none => rfl
      | some i =>
        simp only [Option.map_some', Option.map_map, Function.comp]
        congr 1
        omega

/-- The tie-break fold of the source, from an arbitrary starting state:
the processed pairs are the doubled ones appended, and the recorded tie is
either the inherited one or the detection walk's result. -/
theorem btFold :
    ∀ (l : List CPair) (done : List CPair) (tie : Option Nat),
      l.foldl
        (fun (st : List CPair × Option Nat) p =>
          let p' := { p with curr := p.curr * 2,
                             prime := PRIMES.getD (p.curr * 2 - 1) 2 }
          let tie' := match st.2 with
            | some t => some t
            | none =>
              match st.1.getLast? with
              | some q => if p'.curr = q.curr then some (st.1.length - 1)
                          else none
              | none => none
          (st.1 ++ [p'], tie')) (done, tie)
      = (done ++ doubledPairs l,
         match tie with
         | some t => some t
         | none => auxTie done.getLast? done.length (doubledPairs l)) := by
  intro l
  induction l with
  | nil =>
    intro done tie
    cases tie with
    | none => simp [doubledPairs, auxTie]
    | some t => simp [doubledPairs, auxTie]
  | cons p rest ih =>
    intro done tie
    rw [List.foldl_cons]
    dsimp only []
    rw [ih]
    have hdbl : doubledPairs (p :: rest)
        = ({ p with curr := p.curr * 2, prime := PRIMES.getD (p.curr * 2 - 1) 2 } : CPair) :: doubledPairs rest := by
      simp [doubledPairs]
    rw [hdbl]
    cases tie with
    | some t =>
      simp only [List.append_assoc, List.singleton_append]
    | none =>
      simp only [List.append_assoc, List.singleton_append]
      congr 1
      cases hlast : done.getLast? with
      | none =>
        have hdone : done = [] := List.getLast?_eq_none_iff.1 hlast
        subst hdone
        simp only [List.nil_append, List.length_nil, auxTie]
        rw [List.getLast?_singleton]
        norm_num
      | some q =>
        simp only [auxTie]
        by_cases hc : ({ p with curr := p.curr * 2, prime := PRIMES.getD (p.curr * 2 - 1) 2 } : CPair).curr = q.curr
        · rw [if_pos hc, if_pos hc]
        · rw [if_neg hc, if_neg hc]
          have hlen : (done ++ [({ p with curr := p.curr * 2, prime := PRIMES.getD (p.curr * 2 - 1) 2 } : CPair)]).length = done.length + 1 := by simp
          have hl2 : (done ++ [({ p with curr := p.curr * 2, prime := PRIMES.getD (p.curr * 2 - 1) 2 } : CPair)]).getLast? = some ({ p with curr := p.curr * 2, prime := PRIMES.getD (p.curr * 2 - 1) 2 } : CPair) := by
            simp [List.getLast?_concat]
          rw [hlen, hl2]


/-- The detection walk starting empty computes the predecessor of the
first tied position. -/
theorem auxTie_none (l : List CPair) :
    auxTie none 0 l = (firstTieIdx l).map (fun i => i - 1) := by
  cases l with
  | nil => rfl
  | cons d rest =>
    show auxTie (some d) (0 + 1) rest = _
    rw [auxTie_eq rest d 0]
    cases hf : firstTieIdx (d :: rest) with
    | none => rfl
    | some i => simp

/-- The source's tie-break loop decrements the predecessor of the first
tied pair: it equals the amended specification for every pair list. -/
theorem canonBreakTies_eq_amended (pairs : List CPair) :
    canonBreakTies pairs = specBreakTiesAmended pairs := by
  unfold canonBreakTies
  dsimp only []
  rw [btFold pairs [] none]
  dsimp only []
  rw [List.nil_append]
  show (match auxTie (none : Option CPair) 0 (doubledPairs pairs) with
        | some t => decPair (doubledPairs pairs) t
        | none => doubledPairs pairs) = _
  rw [auxTie_none]
  unfold specBreakTiesAmended
  dsimp only []
  cases hf : firstTieIdx (doubledPairs pairs) with
  | none => rfl
  | some i => rfl

/-- Starting pairs of the canonical labeler for propane, after the initial
sort-and-rank. -/
def exCanonPairs : List CPair :=
  canonSortAndRank ((List.range 3).map fun i =>
    ⟨i, initialInvariant propaneMol i, 0, 2⟩)

/-- C8, counterexample: the claim decrements the later atom of the first
tied pair; the source decrements its predecessor. On two atoms of equal
rank 1 the source yields currs [1, 2], the claim's reading [2, 1]. -/
theorem canon_tiebreak_counterexample :
    canonBreakTies [⟨0, 1, 0, 2⟩, ⟨1, 1, 0, 2⟩]
      ≠ specBreakTiesClaim [⟨0, 1, 0, 2⟩, ⟨1, 1, 0, 2⟩] := by decide

/-- C8, amended: in the tie-break step every curr is doubled and the
PREDECESSOR of the lowest-index tied pair (in sorted order) is
decremented by one; when the refined partition is invariant with maximum
rank below the atom count, iteration continues on the tie-broken pairs;
and the refinement loop of computeCanonicalLabels runs at most 100
rounds. -/
theorem canon_tiebreak_amended :
    (∀ pairs : List CPair, canonBreakTies pairs = specBreakTiesAmended pairs)
    ∧ (∀ (m : Mol) (fuel : Nat) (pairs : List CPair),
        canonIsInvPart (canonRound m pairs) = true →
        ((canonRound m pairs).getLastD default).curr
            < (canonRound m pairs).length →
        canonIter m (fuel + 1) pairs
          = canonIter m fuel (specBreakTiesAmended (canonRound m pairs)))
    ∧ (∀ m : Mol, m.getAllAtoms ≠ 0 →
        computeCanonicalLabels m
          = (List.range m.getAllAtoms).map fun i =>
              (((canonIter m 100 (canonSortAndRank
                    ((List.range m.getAllAtoms).map fun j =>
                      ⟨j, initialInvariant m j, 0, 2⟩))).find?
                  fun p => p.idx = i).getD default).curr) := by
  refine ⟨canonBreakTies_eq_amended, ?_, ?_⟩
  · intro m fuel pairs h1 h2
    rw [canonIter]
    rw [h1]
    rw [if_pos rfl, if_pos h2, canonBreakTies_eq_amended]
  · intro m hn
    unfold computeCanonicalLabels
    rw [if_neg hn]

/-- Witness: the tie-break continuation and the 100-round loop shape at the
concrete input propane. -/
theorem canon_tiebreak_amended_witness :
    (canonIsInvPart (canonRound propaneMol exCanonPairs) = true
      ∧ ((canonRound propaneMol exCanonPairs).getLastD default).curr
          < (canonRound propaneMol exCanonPairs).length
      ∧ canonIter propaneMol 1 exCanonPairs
          = canonIter propaneMol 0
              (specBreakTiesAmended (canonRound propaneMol exCanonPairs)))
    ∧ (propaneMol.getAllAtoms ≠ 0
      ∧ computeCanonicalLabels propaneMol
          = (List.range propaneMol.getAllAtoms).map fun i =>
              (((canonIter propaneMol 100 (canonSortAndRank
                    ((List.range propaneMol.getAllAtoms).map fun j =>
                      ⟨j, initialInvariant propaneMol j, 0, 2⟩))).find?
                  fun p => p.idx = i).getD default).curr) :=
  ⟨⟨by decide, by decide,
    canon_tiebreak_amended.2.1 propaneMol 0 exCanonPairs (by decide) (by decide)⟩,
   ⟨by decide, canon_tiebreak_amended.2.2 propaneMol (by decide)⟩⟩

end VamosHose

namespace VamosHose

/-- Members of an association-list update are unchanged entries of another
key, or carry the new value. -/
theorem mem_updateAssoc {β : Type} {m : List (String × β)} {k : String}
    {v : β} {kv : String × β} (h : kv ∈ updateAssoc m k v) :
    (kv ∈ m ∧ kv.1 ≠ k) ∨ kv.2 = v := by
  unfold updateAssoc at h
  by_cases ha : m.any fun kv => kv.1 = k
  · rw [if_pos ha] at h
    rcases List.mem_map.1 h with ⟨kv0, hkv0, heq⟩
    by_cases hk : kv0.1 = k
    · rw [if_pos hk] at heq
      right
      rw [← heq]
    · rw [if_neg hk] at heq
      left
      rw [← heq]
      exact ⟨hkv0, hk⟩
  · rw [if_neg ha] at h
    rcases List.mem_append.1 h with h' | h'
    · left
      refine ⟨h', fun hk => ?_⟩
      exact ha (List.any_eq_true.2 ⟨kv, h', by simpa using hk⟩)
    · right
      rw [List.mem_singleton.1 h']

/-- A property holding on all values of an association list and on the
default value holds on any lookup. -/
theorem getAssoc_prop {β : Type} [Inhabited β] (P : β → Prop)
    (m : List (String × β)) (k : String)
    (hm : ∀ kv ∈ m, P kv.2) (hd : P (default : β)) :
    P (getAssoc m k) := by
  unfold getAssoc
  cases hf : m.find? fun kv => kv.1 = k with
  | none => simpa using hd
  | some kv => simpa using hm kv (List.mem_of_find?_eq_some hf)

/-- Invariant of a per-SMILES accumulator relative to the peak count and
tolerance: matched indices are distinct and in range, the cumulative error
is non-negative and at most `matched · tolerance`. -/
def accumOK (np : Nat) (tol : Rat) (a : Accum) : Prop :=
  a.matchedPeaks.Nodup ∧ (∀ i ∈ a.matchedPeaks, i < np)
    ∧ 0 ≤ a.totalError
    ∧ a.totalError ≤ (a.matchedPeaks.length : Rat) * tol

/-- The fresh accumulator satisfies the invariant. -/
theorem accumOK_fresh (np : Nat) (tol : Rat) :
    accumOK np tol ⟨[], [], 0⟩ := by
  refine ⟨List.nodup_nil, ?_, le_refl 0, ?_⟩
  · intro i hi
    exact absurd hi (List.not_mem_nil i)
  · simp

/-- One peak-comparison step preserves the accumulator invariant. -/
theorem accumPeakStep_ok (tol shift : Rat) (peaks : List Rat)
    (hoseCode : List Nat) (smiles : String)
    (bySmiles : List (String × Accum)) (i : Nat)
    (hi : i < peaks.length)
    (hOK : ∀ kv ∈ bySmiles, accumOK peaks.length tol kv.2) :
    ∀ kv ∈ accumPeakStep tol shift peaks hoseCode smiles bySmiles i,
      accumOK peaks.length tol kv.2 := by
  unfold accumPeakStep
  dsimp only []
  by_cases herr : |shift - peaks.getD i 0| ≤ tol
  · rw [if_pos herr]
    have hOK' : ∀ kv ∈ (if bySmiles.any fun kv => kv.1 = smiles then bySmiles
        else bySmiles ++ [(smiles, ⟨[], [], 0⟩)]), accumOK peaks.length tol kv.2 := by
      by_cases ha : bySmiles.any fun kv => kv.1 = smiles
      · rw [if_pos ha]
        exact hOK
      · rw [if_neg ha]
        intro kv hkv
        rcases List.mem_append.1 hkv with h' | h'
        · exact hOK kv h'
        · rw [List.mem_singleton.1 h']
          exact accumOK_fresh peaks.length tol
    have hacc : accumOK peaks.length tol
        (getAssoc (if bySmiles.any fun kv => kv.1 = smiles then bySmiles
          else bySmiles ++ [(smiles, ⟨[], [], 0⟩)]) smiles) := by
      refine getAssoc_prop (accumOK peaks.length tol) _ smiles hOK' ?_
      exact accumOK_fresh peaks.length tol
    by_cases hct : (getAssoc (if bySmiles.any fun kv => kv.1 = smiles then bySmiles
        else bySmiles ++ [(smiles, ⟨[], [], 0⟩)]) smiles).matchedPeaks.contains i
    · rw [if_pos hct]
      exact hOK'
    · rw [if_neg hct]
      intro kv hkv
      rcases mem_updateAssoc hkv with ⟨h', _⟩ | h'
      · exact hOK' kv h'
      · rw [h']
        have hmem : i ∉ (getAssoc (if bySmiles.any fun kv => kv.1 = smiles then
            bySmiles else bySmiles ++ [(smiles, ⟨[], [], 0⟩)]) smiles).matchedPeaks := by
          intro hc
          exact hct (List.elem_iff.2 hc)
        rcases hacc with ⟨hnd, hbd, hE0, hEτ⟩
        refine ⟨?_, ?_, ?_, ?_⟩
        · simp only [List.nodup_append, List.nodup_singleton]
          refine ⟨hnd, by simp, ?_⟩
          intro x hx
          simp only [List.mem_singleton]
          intro he
          exact hmem (he ▸ hx)
        · intro j hj
          rcases List.mem_append.1 hj with h'' | h''
          · exact hbd j h''
          · rw [List.mem_singleton.1 h'']
            exact hi
        · have := abs_nonneg (shift - peaks.getD i 0)
          dsimp only []
          linarith
        · dsimp only []
          rw [List.length_append, List.length_singleton]
          push_cast
          nlinarith [herr]
  · rw [if_neg herr]
    exact hOK

end VamosHose

namespace VamosHose

/-- The peak-comparison fold preserves the accumulator invariant. -/
theorem accumFold_ok (tol shift : Rat) (peaks : List Rat)
    (hoseCode : List Nat) (smiles : String) :
    ∀ (l : List Nat) (bySmiles : List (String × Accum)),
      (∀ i ∈ l, i < peaks.length) →
      (∀ kv ∈ bySmiles, accumOK peaks.length tol kv.2) →
      ∀ kv ∈ l.foldl (accumPeakStep tol shift peaks hoseCode smiles) bySmiles,
        accumOK peaks.length tol kv.2 := by
  intro l
  induction l with
  | nil =>
    intro bySmiles _ hOK
    simpa using hOK
  | cons i l ih =>
    intro bySmiles hl hOK
    rw [List.foldl_cons]
    refine ih _ (fun j hj => hl j (List.mem_cons_of_mem i hj)) ?_
    exact accumPeakStep_ok tol shift peaks hoseCode smiles bySmiles i
      (hl i (List.mem_cons_self i l)) hOK

/-- One database entry preserves the accumulator invariant. -/
theorem accumEntryStep_ok (peaks : List Rat) (tol : Rat) (nuc : String)
    (bySmiles : List (String × Accum)) (he : List Nat × Entry)
    (hOK : ∀ kv ∈ bySmiles, accumOK peaks.length tol kv.2) :
    ∀ kv ∈ accumEntryStep peaks tol nuc bySmiles he,
      accumOK peaks.length tol kv.2 := by
  unfold accumEntryStep
  by_cases hn : he.2.n ≠ nuc
  · rw [if_pos hn]
    exact hOK
  · rw [if_neg hn]
    exact accumFold_ok tol (computeWeightedAvg he.2) peaks he.1 he.2.s
      (List.range peaks.length) bySmiles
      (fun i hi => List.mem_range.1 hi) hOK

/-- Every accumulator built by `buildAccums` satisfies the invariant:
distinct in-range matched peak indices, non-negative cumulative error
bounded by `matched · tolerance`. -/
theorem buildAccums_ok (db : List (List Nat × Entry)) (peaks : List Rat)
    (tol : Rat) (nuc : String) :
    ∀ kv ∈ buildAccums db peaks tol nuc, accumOK peaks.length tol kv.2 := by
  unfold buildAccums
  have hgen : ∀ (l : List (List Nat × Entry)) (bySmiles : List (String × Accum)),
      (∀ kv ∈ bySmiles, accumOK peaks.length tol kv.2) →
      ∀ kv ∈ l.foldl (accumEntryStep peaks tol nuc) bySmiles,
        accumOK peaks.length tol kv.2 := by
    intro l
    induction l with
    | nil =>
      intro bySmiles hOK
      simpa using hOK
    | cons he l ih =>
      intro bySmiles hOK
      rw [List.foldl_cons]
      exact ih _ (accumEntryStep_ok peaks tol nuc bySmiles he hOK)
  exact hgen db [] (by intro kv hkv; exact absurd hkv (List.not_mem_nil kv))

/-- The emission fold appends exactly one candidate per accumulator with
enough matched peaks. -/
theorem scoreFold_eq (peaks : List Rat) (tol : Rat) (minM : Nat) :
    ∀ (l : List (String × Accum)) (init : List Candidate),
      l.foldl (scoreStep peaks tol minM) init
        = init ++ (l.filter fun kv =>
            decide (minM ≤ kv.2.matchedPeaks.length)).map (mkCand peaks tol) := by
  intro l
  induction l with
  | nil =>
    intro init
    simp
  | cons a l ih =>
    intro init
    rw [List.foldl_cons, ih, List.filter_cons]
    by_cases h : a.2.matchedPeaks.length < minM
    · have hd : decide (minM ≤ a.2.matchedPeaks.length) = false := by
        simpa using Nat.not_le.2 h
      rw [hd]
      unfold scoreStep
      rw [if_pos h]
      simp
    · have hd : decide (minM ≤ a.2.matchedPeaks.length) = true := by
        simpa using Nat.not_lt.1 h
      rw [hd, if_pos rfl]
      unfold scoreStep
      rw [if_neg h]
      simp

/-- Membership in `scoreDatabase`, characterised by the accumulators. -/
theorem scoreDatabase_mem_iff (db : List (List Nat × Entry))
    (peaks : List Rat) (tol : Rat) (minM : Nat) (nuc : String)
    (c : Candidate) :
    c ∈ scoreDatabase db peaks tol minM nuc
      ↔ ∃ kv ∈ buildAccums db peaks tol nuc,
          minM ≤ kv.2.matchedPeaks.length ∧ c = mkCand peaks tol kv := by
  unfold scoreDatabase
  rw [scoreFold_eq]
  simp only [List.nil_append, List.mem_map, List.mem_filter,
    decide_eq_true_eq]
  constructor
  · rintro ⟨kv, ⟨hkv, hmin⟩, hceq⟩
    exact ⟨kv, hkv, hmin, hceq.symm⟩
  · rintro ⟨kv, hkv, hmin, hceq⟩
    exact ⟨kv, ⟨hkv, hmin⟩, hceq.symm⟩

/-- The emitted candidate, written with the spec's `round1000` argument
order. -/
theorem mkCand_spec_form (peaks : List Rat) (tol : Rat)
    (kv : String × Accum) :
    mkCand peaks tol kv
      = ⟨kv.1, kv.2.hoses.getD 0 [], kv.2.matchedPeaks.length,
         (jsRound (1000 * ((kv.2.matchedPeaks.length : Rat)
             / (peaks.length : Rat)
           * (1 - (kv.2.totalError / (kv.2.matchedPeaks.length : Rat))
               / tol))) : Rat) / 1000⟩ := by
  unfold mkCand
  dsimp only []
  have harg : (kv.2.matchedPeaks.length : Rat) / (peaks.length : Rat)
      * (1 - (kv.2.totalError / (kv.2.matchedPeaks.length : Rat)) / tol)
      * 1000
      = 1000 * ((kv.2.matchedPeaks.length : Rat) / (peaks.length : Rat)
      * (1 - (kv.2.totalError / (kv.2.matchedPeaks.length : Rat)) / tol)) := by
    ring
  rw [harg]

end VamosHose

namespace VamosHose

/-- The comparator holds exactly for a strictly greater (score, matched)
lexicographic pair. -/
theorem candLt_true_iff (a b : Candidate) :
    candLt a b = true
      ↔ (b.score < a.score
          ∨ (b.score = a.score ∧ b.matchedPeaks < a.matchedPeaks)) := by
  unfold candLt
  by_cases h : b.score - a.score ≠ 0
  · rw [if_pos h]
    simp only [decide_eq_true_eq]
    constructor
    · intro hlt
      left
      linarith
    · rintro (hlt | ⟨heq, _⟩)
      · linarith
      · exact absurd (by rw [heq]; ring) h
  · rw [if_neg h]
    push_neg at h
    have heq : b.score = a.score := by
      have := sub_eq_zero.1 h
      linarith
    simp only [decide_eq_true_eq]
    constructor
    · intro hlt
      right
      exact ⟨heq, by omega⟩
    · rintro (hlt | ⟨_, hmp⟩)
      · rw [heq] at hlt
        exact absurd hlt (lt_irrefl _)
      · omega

/-- The comparator fails exactly for a lexicographically not-smaller
pair. -/
theorem candLt_false_iff (a b : Candidate) :
    candLt a b = false
      ↔ (a.score ≤ b.score
          ∧ (b.score = a.score → a.matchedPeaks ≤ b.matchedPeaks)) := by
  rw [← Bool.not_eq_true, candLt_true_iff]
  constructor
  · intro h
    push_neg at h
    exact h
  · intro h
    push_neg
    exact h

/-- The comparator is asymmetric. -/
theorem candLt_asymm (a b : Candidate) (h : candLt a b = true) :
    candLt b a = false := by
  rw [candLt_true_iff] at h
  rw [candLt_false_iff]
  rcases h with hlt | ⟨heq, hmp⟩
  · exact ⟨le_of_lt hlt, fun heq => by rw [heq] at hlt; exact absurd hlt (lt_irrefl _)⟩
  · exact ⟨le_of_eq heq, fun _ => le_of_lt hmp⟩

/-- The negated comparator is transitive. -/
theorem candLt_trans (a b c : Candidate) (hba : candLt b a = false)
    (hcb : candLt c b = false) : candLt c a = false := by
  rw [candLt_false_iff] at hba hcb ⊢
  refine ⟨le_trans hcb.1 hba.1, fun heq => ?_⟩
  have h1 : b.score = a.score := by
    have := hcb.1
    have := hba.1
    linarith [le_of_eq heq, le_of_eq heq.symm]
  have h2 : b.score = c.score := by linarith [le_of_eq h1]
  exact le_trans (hcb.2 h2) (hba.2 h1.symm)

end VamosHose

namespace VamosHose

/-- C9: each per-SMILES accumulator counts each observed peak index at
most once; a candidate is returned exactly for each accumulator with at
least `minMatches` matched peaks, scored
`round1000((matched/|P|)·(1 − (E/matched)/τ))` with
`round1000(x) = round(1000·x)/1000`; and the estimator's output is sorted
descending by score with ties broken by larger matched-peak count and
truncated to at most `maxResults` entries. -/
theorem estimator_scoring_spec :
    (∀ (db : List (List Nat × Entry)) (peaks : List Rat) (tolerance : Rat)
        (targetNucleus : String),
        ∀ kv ∈ buildAccums db peaks tolerance targetNucleus,
          kv.2.matchedPeaks.Nodup)
    ∧ (∀ (db : List (List Nat × Entry)) (peaks : List Rat) (tolerance : Rat)
        (minMatches : Nat) (targetNucleus : String) (c : Candidate),
        c ∈ scoreDatabase db peaks tolerance minMatches targetNucleus
          ↔ ∃ kv ∈ buildAccums db peaks tolerance targetNucleus,
              minMatches ≤ kv.2.matchedPeaks.length
              ∧ c = ⟨kv.1, kv.2.hoses.getD 0 [], kv.2.matchedPeaks.length,
                  (jsRound (1000 * ((kv.2.matchedPeaks.length : Rat)
                      / (peaks.length : Rat)
                    * (1 - (kv.2.totalError
                        / (kv.2.matchedPeaks.length : Rat)) / tolerance)))
                    : Rat) / 1000⟩)
    ∧ (∀ (db : List (List Nat × Entry)) (peaks : List Rat) (tolerance : Rat)
        (minMatches maxResults : Nat) (targetNucleus : String),
        (estimateFromSpectra db peaks tolerance minMatches maxResults
            targetNucleus).length ≤ maxResults
        ∧ (estimateFromSpectra db peaks tolerance minMatches maxResults
            targetNucleus).Pairwise
            (fun x y => y.score < x.score
              ∨ (y.score = x.score ∧ y.matchedPeaks ≤ x.matchedPeaks))) := by
  refine ⟨?_, ?_, ?_⟩
  · intro db peaks tol nuc kv hkv
    exact (buildAccums_ok db peaks tol nuc kv hkv).1
  · intro db peaks tol minM nuc c
    rw [scoreDatabase_mem_iff]
    constructor
    · rintro ⟨kv, hkv, hmin, hceq⟩
      exact ⟨kv, hkv, hmin, by rw [hceq, mkCand_spec_form]⟩
    · rintro ⟨kv, hkv, hmin, hceq⟩
      exact ⟨kv, hkv, hmin, by rw [mkCand_spec_form]; exact hceq⟩
  · intro db peaks tol minM maxR nuc
    unfold estimateFromSpectra
    by_cases hp : peaks.length = 0
    · rw [if_pos hp]
      exact ⟨Nat.zero_le _, List.Pairwise.nil⟩
    · rw [if_neg hp]
      dsimp only []
      constructor
      · rw [List.length_take]
        exact min_le_left _ _
      · have hs := sorted_jsSort candLt candLt_asymm candLt_trans
          (scoreDatabase db peaks tol minM nuc)
        refine (List.Pairwise.sublist (List.take_sublist maxR _) hs).imp ?_
        intro x y hxy
        have h := (candLt_false_iff y x).1 hxy
        rcases lt_or_eq_of_le h.1 with hlt | heq
        · exact Or.inl hlt
        · exact Or.inr ⟨heq, h.2 heq.symm⟩

/-- One-entry store used by the estimator witnesses: nucleus C, SMILES
CCO, a single solvent with average shift 100 and count 1. -/
def exEstDb : List (List Nat × Entry) :=
  [([65], ⟨"C", "CCO", [("c", ⟨0, 0, 100, 1⟩)]⟩)]

/-- One observed peak at 100 ppm. -/
def exEstPeaks : List Rat := [100]

/-- The accumulator built from the store above. -/
def exAccKv : String × Accum := ("CCO", ⟨[[65]], [0], 0⟩)

/-- The candidate returned for the store above. -/
def exEstCand : Candidate := ⟨"CCO", [65], 1, 1⟩

/-- Witness: the concrete accumulator of the one-entry store has distinct
matched peak indices. -/
theorem estimator_scoring_spec_witness :
    exAccKv ∈ buildAccums exEstDb exEstPeaks 2 "C"
    ∧ exAccKv.2.matchedPeaks.Nodup := by
  have h : buildAccums exEstDb exEstPeaks 2 "C" = [exAccKv] := by
    with_unfolding_all rfl
  have hmem : exAccKv ∈ buildAccums exEstDb exEstPeaks 2 "C" := by
    rw [h]
    exact List.mem_singleton_self exAccKv
  exact ⟨hmem,
    estimator_scoring_spec.1 exEstDb exEstPeaks 2 "C" exAccKv hmem⟩

/-- A list of distinct naturals all below `n` has at most `n` elements. -/
theorem nodup_length_le {l : List Nat} {n : Nat} (hnd : l.Nodup)
    (hb : ∀ i ∈ l, i < n) : l.length ≤ n := by
  have hsub : l ⊆ List.range n := fun i hi => List.mem_range.2 (hb i hi)
  have h := (hnd.subperm hsub).length_le
  simpa using h

/-- Bounds of the candidate score under the accumulator invariant. -/
theorem score_bound_aux (m n : Nat) (E tol : Rat) (hn : n ≠ 0) (hm : m ≤ n)
    (hE0 : 0 ≤ E) (hEm : E ≤ (m : Rat) * tol) (htol : 0 < tol) :
    0 ≤ ((jsRound ((m : Rat) / (n : Rat) * (1 - (E / (m : Rat)) / tol)
        * 1000) : Rat) / 1000)
    ∧ ((jsRound ((m : Rat) / (n : Rat) * (1 - (E / (m : Rat)) / tol)
        * 1000) : Rat) / 1000) ≤ 1 := by
  have hbounds : 0 ≤ (m : Rat) / (n : Rat) * (1 - (E / (m : Rat)) / tol)
        * 1000
      ∧ (m : Rat) / (n : Rat) * (1 - (E / (m : Rat)) / tol) * 1000
        ≤ 1000 := by
    by_cases hm0 : m = 0
    · subst hm0
      norm_num
    · have hmpos : (0 : Rat) < (m : Rat) := by
        exact_mod_cast Nat.pos_of_ne_zero hm0
      have hnpos : (0 : Rat) < (n : Rat) := by
        exact_mod_cast Nat.pos_of_ne_zero hn
      have havg0 : 0 ≤ E / (m : Rat) := div_nonneg hE0 (le_of_lt hmpos)
      have havg1 : E / (m : Rat) ≤ tol := by
        rw [div_le_iff hmpos, mul_comm]
        exact hEm
      have hq0 : 0 ≤ (E / (m : Rat)) / tol :=
        div_nonneg havg0 (le_of_lt htol)
      have hq1 : (E / (m : Rat)) / tol ≤ 1 := by
        rw [div_le_one htol]
        exact havg1
      have hr0 : 0 ≤ (m : Rat) / (n : Rat) :=
        div_nonneg (le_of_lt hmpos) (le_of_lt hnpos)
      have hr1 : (m : Rat) / (n : Rat) ≤ 1 := by
        rw [div_le_one hnpos]
        exact_mod_cast hm
      have hf0 : (0 : Rat) ≤ 1 - (E / (m : Rat)) / tol := by linarith
      have hf1 : 1 - (E / (m : Rat)) / tol ≤ 1 := by linarith
      have hp0 : 0 ≤ (m : Rat) / (n : Rat) * (1 - (E / (m : Rat)) / tol) :=
        mul_nonneg hr0 hf0
      have hp1 : (m : Rat) / (n : Rat) * (1 - (E / (m : Rat)) / tol) ≤ 1 := by
        have h := mul_le_mul hr1 hf1 hf0 (by norm_num : (0 : Rat) ≤ 1)
        simpa using h
      constructor
      · linarith
      · linarith
  rcases hbounds with ⟨h0, h1⟩
  have hround0 : (0 : Int) ≤ jsRound ((m : Rat) / (n : Rat)
      * (1 - (E / (m : Rat)) / tol) * 1000) := by
    unfold jsRound
    rw [round_eq]
    refine Int.le_floor.2 ?_
    push_cast
    linarith
  have hround1 : jsRound ((m : Rat) / (n : Rat)
      * (1 - (E / (m : Rat)) / tol) * 1000) ≤ 1000 := by
    unfold jsRound
    rw [round_eq]
    have hlt : ((m : Rat) / (n : Rat) * (1 - (E / (m : Rat)) / tol) * 1000)
        + 1 / 2 < ((1001 : Int) : Rat) := by
      push_cast
      linarith
    have h := Int.floor_lt.2 hlt
    omega
  constructor
  · apply div_nonneg _ (by norm_num : (0 : Rat) ≤ 1000)
    exact_mod_cast hround0
  · rw [div_le_one (by norm_num : (0 : Rat) < 1000)]
    exact_mod_cast hround1

/-- C10: with no observed peaks the estimator returns the empty list for
every database; and with a positive tolerance every returned candidate's
score lies in the closed interval [0, 1]. -/
theorem estimate_bounds :
    (∀ (db : List (List Nat × Entry)) (tolerance : Rat)
        (minMatches maxResults : Nat) (targetNucleus : String),
        estimateFromSpectra db [] tolerance minMatches maxResults
          targetNucleus = [])
    ∧ (∀ (db : List (List Nat × Entry)) (peaks : List Rat) (tolerance : Rat)
        (minMatches maxResults : Nat) (targetNucleus : String)
        (c : Candidate),
        0 < tolerance →
        c ∈ estimateFromSpectra db peaks tolerance minMatches maxResults
          targetNucleus →
        0 ≤ c.score ∧ c.score ≤ 1) := by
  constructor
  · intro db tol minM maxR nuc
    rfl
  · intro db peaks tol minM maxR nuc c htol hc
    unfold estimateFromSpectra at hc
    by_cases hp : peaks.length = 0
    · rw [if_pos hp] at hc
      simp at hc
    · rw [if_neg hp] at hc
      dsimp only [] at hc
      have hc1 : c ∈ jsSort candLt (scoreDatabase db peaks tol minM nuc) :=
        List.take_subset _ _ hc
      have hc2 := mem_jsSort candLt hc1
      rcases (scoreDatabase_mem_iff db peaks tol minM nuc c).1 hc2
        with ⟨kv, hkv, hmin, hceq⟩
      rcases buildAccums_ok db peaks tol nuc kv hkv
        with ⟨hnd, hbd, hE0, hEτ⟩
      have hlen : kv.2.matchedPeaks.length ≤ peaks.length :=
        nodup_length_le hnd hbd
      have hb := score_bound_aux kv.2.matchedPeaks.length peaks.length
        kv.2.totalError tol hp hlen hE0 hEτ htol
      rw [hceq]
      unfold mkCand
      dsimp only []
      exact hb

/-- Witness: the single candidate of the one-entry store has score 1,
inside [0, 1]. -/
theorem estimate_bounds_witness :
    (0 : Rat) < 2
    ∧ exEstCand ∈ estimateFromSpectra exEstDb exEstPeaks 2 1 50 "C"
    ∧ (0 ≤ exEstCand.score ∧ exEstCand.score ≤ 1) := by
  have h : estimateFromSpectra exEstDb exEstPeaks 2 1 50 "C" = [exEstCand] := by
    with_unfolding_all rfl
  have hmem : exEstCand ∈ estimateFromSpectra exEstDb exEstPeaks 2 1 50 "C" := by
    rw [h]
    exact List.mem_singleton_self exEstCand
  have htol : (0 : Rat) < 2 := by norm_num
  exact ⟨htol, hmem,
    estimate_bounds.2 exEstDb exEstPeaks 2 1 50 "C" exEstCand htol hmem⟩

end VamosHose
